import Mathlib

/-!
Verification of the `gutter` segment-tree library (`gutter_base.h`,
`gutter_retrieve.h`, `gutter_apply.h`).

The heap is modelled as a total function `ℕ → T`; the C++ buffer holds cells
`1 .. 2n-1`.  All traversal code is translated directly from the source; the
combining operation is a parameter `op` with identity `e`.
-/

namespace Gutter

/-- Fuel-indexed helper for `msb`; the fuel argument only forces structural
recursion and is irrelevant once it is at least `v`. -/
def msbA : ℕ → ℕ → ℕ
  | 0, v => v
  | f + 1, v => if v ≤ 1 then v else 2 * msbA f (v / 2)

/-- Modelled from the spec: `highestPowerOfTwoLE` (`msb` from `BitTwiddles.h`,
which is not part of this repository's sources): the greatest power of two
that is `≤ v`, and `0` for `v = 0`. -/
def msb (v : ℕ) : ℕ := msbA v v

/-- The first index of the deepest row: `index_first_of_row(2*_size-1)` in
`gutter_base::index_nth_leaf`. -/
def Dn (n : ℕ) : ℕ := msb (2 * n - 1)

/-- `gutter_base::index_nth_leaf`: heap cell of the `k`-th logical leaf. -/
def leafIdx (n k : ℕ) : ℕ :=
  if k + Dn n < 2 * n then k + Dn n else k + Dn n - n

/-- Logical position of a heap leaf cell (the inverse of `leafIdx`); used only
in specifications and proofs, not by the translated code. -/
def posIdx (n j : ℕ) : ℕ :=
  if Dn n ≤ j then j - Dn n else j + n - Dn n

/-- Pointwise update of a heap function (a single cell write). -/
def upd {T : Type} (h : ℕ → T) (j : ℕ) (x : T) : ℕ → T :=
  fun v => if v = j then x else h v

/-- Fuel-indexed helper for `pathL`. -/
def pathLA : ℕ → ℕ → List ℕ
  | 0, _ => []
  | f + 1, j => if j = 0 then [] else j :: pathLA f (j / 2)

/-- The node chain visited by `gutter_base::act_on_all_ancestors_leafup`
starting at `index`: the node itself and all its ancestors up to the root. -/
def pathL (j : ℕ) : List ℕ := pathLA j j

/-- Logical positions of the leaves in the subtree rooted at heap node `j`
(in spatial left-to-right order); a specification-side notion. -/
def leavesUnder (n j : ℕ) : List ℕ :=
  if n ≤ j ∨ j = 0 then (if j = 0 then [] else [posIdx n j])
  else leavesUnder n (2 * j) ++ leavesUnder n (2 * j + 1)
termination_by 2 * n - j
decreasing_by
  · omega
  · omega

/-- Leftmost leaf cell of the subtree rooted at `j`. -/
def leafLo (n j : ℕ) : ℕ :=
  if n ≤ j ∨ j = 0 then j else leafLo n (2 * j)
termination_by 2 * n - j
decreasing_by
  omega

/-- Rightmost leaf cell of the subtree rooted at `j`. -/
def leafHi (n j : ℕ) : ℕ :=
  if n ≤ j ∨ j = 0 then j else leafHi n (2 * j + 1)
termination_by 2 * n - j
decreasing_by
  omega

/-- The node visitation list of `gutter_base::act_on_min_covering_ancestors`
after the `i1 >= i2` guard, starting from the (inclusive) heap-leaf bounds
`L` and `R`.  `fuel` bounds the number of loop iterations; `L + R` always
suffices. -/
def mcaList (fuel L R : ℕ) : List ℕ :=
  match fuel with
  | 0 => []
  | f + 1 =>
    if L = R then [L]
    else if L % 2 = 1 then
      if L + 1 = R then [L, R]
      else if (L + 1) / 2 = R then [L, (L + 1) / 2]
      else if R % 2 = 0 then
        if (L + 1) / 2 = R - 1 then [L, R, (L + 1) / 2]
        else [L, R] ++ mcaList f ((L + 1) / 2) ((R - 1) / 2)
      else [L] ++ mcaList f ((L + 1) / 2) (R / 2)
    else
      if L / 2 = R then [L / 2]
      else if R % 2 = 0 then
        if L / 2 = R - 1 then [R, L / 2]
        else [R] ++ mcaList f (L / 2) ((R - 1) / 2)
      else mcaList f (L / 2) (R / 2)

/-- Fuel-indexed helper for `ancInRow`. -/
def ancInRowA : ℕ → ℕ → ℕ → ℕ
  | 0, j, _ => j
  | f + 1, j, r => if 1 ≤ r ∧ r ≤ j / 2 then ancInRowA f (j / 2) r else j

/-- `gutter_base::index_ancestor_in_row`: climb parent links from `j` while
the parent is still at or beyond row-first index `r`. -/
def ancInRow (j r : ℕ) : ℕ := ancInRowA j j r

/-- Fuel-indexed helper for `pow2sLT`. -/
def pow2sLTA : ℕ → ℕ → ℕ → List ℕ
  | 0, _, _ => []
  | f + 1, i, b => if 1 ≤ i ∧ i < b then i :: pow2sLTA f (2 * i) b else []

/-- Row-first indices `1, 2, 4, …` strictly below `b`
(the loop `for (i=1; i<index; i*=2)`). -/
def pow2sLT (i b : ℕ) : List ℕ := pow2sLTA b i b

/-- Fuel-indexed helper for `pow2sLE`. -/
def pow2sLEA : ℕ → ℕ → ℕ → List ℕ
  | 0, _, _ => []
  | f + 1, i, b => if 1 ≤ i ∧ i ≤ b then i :: pow2sLEA f (2 * i) b else []

/-- Row-first indices `1, 2, 4, …` up to and including `b`
(the loop `for (i=1; i<=i1; i*=2)`). -/
def pow2sLE (i b : ℕ) : List ℕ := pow2sLEA (b + 1) i b

/-- Visitation list of the single-path
`gutter_base::act_on_all_ancestors_rootdown(index, functor)`. -/
def rdSingle (j : ℕ) : List ℕ :=
  (pow2sLT 1 j).map (fun i => ancInRow j i)

/-- Visitation list of the pair
`gutter_base::act_on_all_ancestors_rootdown(i1, i2, functor)`. -/
def rdPair (n i1 i2 : ℕ) : List ℕ :=
  (pow2sLE 1 i1).flatMap (fun i =>
    let lo := ancInRow i1 i
    let hi := ancInRow (if i ≤ i2 then i2 else 2 * n - 1) i
    List.range' lo (hi + 1 - lo))

/-- Fuel-indexed helper for `luAux`. -/
def luAuxA : ℕ → ℕ → ℕ → List ℕ
  | 0, _, _ => []
  | f + 1, i1, i2 =>
    if 1 ≤ i1 then List.range' i1 (i2 + 1 - i1) ++ luAuxA f (i1 / 2) (i2 / 2)
    else []

/-- The `while (i1 > 0)` loop of the pair
`gutter_base::act_on_all_ancestors_leafup(i1, i2, functor)`. -/
def luAux (i1 i2 : ℕ) : List ℕ := luAuxA i1 i1 i2

/-- Visitation list of the pair `act_on_all_ancestors_leafup(i1, i2, functor)`,
including its `i1 > i2` wrap block. -/
def luPairList (n i1 i2 : ℕ) : List ℕ :=
  if i1 > i2 then
    List.range' i1 (ancInRow (2 * n - 1) (msb i1) + 1 - i1) ++ luAux (i1 / 2) i2
  else luAux i1 i2

/-- Leaf visitation list of `gutter_base::act_on_leaves_in_order` (a do-while
loop from `i` with exclusive stop `stop`, wrapping `2n ↦ n`). -/
def walkList (n fuel i stop : ℕ) : List ℕ :=
  match fuel with
  | 0 => []
  | f + 1 =>
    if i = 2 * n then
      n :: (if n + 1 = stop then [] else walkList n f (n + 1) stop)
    else
      i :: (if i + 1 = stop then [] else walkList n f (i + 1) stop)

/-- Fuel that is always sufficient for the loops modelled with fuel. -/
def fuelFor (n : ℕ) : ℕ := 4 * n + 4

section Ops

variable {T : Type}

/-- Fold of `gutter_base::functor_get` over a visitation list:
`res = op(); res = op(res, heap[v])` for each visited `v`. -/
def getFold (op : T → T → T) (e : T) (h : ℕ → T) (vs : List ℕ) : T :=
  vs.foldl (fun r v => op r (h v)) e

/-- Writes of `gutter_base::functor_apply` over a visitation list:
`heap[v] = op(heap[v], x)` for each visited `v`. -/
def applyFold (op : T → T → T) (h : ℕ → T) (vs : List ℕ) (x : T) : ℕ → T :=
  vs.foldl (fun hh v => upd hh v (op (hh v) x)) h

/-- Writes of `gutter_base::functor_set_from_iter`: the `t`-th visited cell
receives the `t`-th input value. -/
def setFold (h : ℕ → T) (vs : List ℕ) (xs : List T) : ℕ → T :=
  (vs.zip xs).foldl (fun hh p => upd hh p.1 p.2) h

/-- One step of `gutter_apply`'s consolidation (`functor_consolidate`, with the
evident reading of its `in`/`index` parameter): push the pending value of node
`a` into both children and reset `a` to the identity. -/
def consolidateAt (op : T → T → T) (e : T) (h : ℕ → T) (a : ℕ) : ℕ → T :=
  upd (upd (upd h (2 * a) (op (h (2 * a)) (h a)))
        (2 * a + 1) (op (h (2 * a + 1)) (h a))) a e

/-- One step of `gutter_retrieve::functor_update_parent`:
`heap[j] = op(heap[2j], heap[2j+1])`. -/
def updateParent (op : T → T → T) (h : ℕ → T) (j : ℕ) : ℕ → T :=
  upd h j (op (h (2 * j)) (h (2 * j + 1)))

/-- Fold `updateParent` over a visitation list. -/
def updFold (op : T → T → T) (h : ℕ → T) (vs : List ℕ) : ℕ → T :=
  vs.foldl (fun hh v => updateParent op hh v) h

/-- Fold `consolidateAt` over a visitation list. -/
def consFold (op : T → T → T) (e : T) (h : ℕ → T) (vs : List ℕ) : ℕ → T :=
  vs.foldl (fun hh v => consolidateAt op e hh v) h

/-- The constructor heap: `gutter_retrieve`/`gutter_apply` size constructors
fill all cells with `op()`. -/
def freshHeap (e : T) : ℕ → T := fun _ => e

/-- `gutter_apply::apply(leaf_no, x)` (point apply). -/
def gaApplyOne (op : T → T → T) (n : ℕ) (h : ℕ → T) (i : ℕ) (x : T) : ℕ → T :=
  upd h (leafIdx n i) (op (h (leafIdx n i)) x)

/-- `gutter_apply::assign(leaf_no, x)`: root-down consolidation along the
single path to the leaf's parent, then combine `x` into the leaf cell. -/
def gaAssignOne (op : T → T → T) (e : T) (n : ℕ) (h : ℕ → T) (i : ℕ) (x : T) :
    ℕ → T :=
  let p := leafIdx n i / 2
  let h' := consFold op e h (rdSingle p)
  upd h' (leafIdx n i) (op (h' (leafIdx n i)) x)

/-- `gutter_apply::operator[]` (point read): leaf-up accumulation over the
leaf cell and all its ancestors. -/
def gaReadOne (op : T → T → T) (e : T) (n : ℕ) (h : ℕ → T) (i : ℕ) : T :=
  getFold op e h (pathL (leafIdx n i))

/-- `gutter_apply::apply(i1, i2, x)` (range apply): combine `x` into every
node of the canonical decomposition of `[i1, i2)`. -/
def gaApplyRange (op : T → T → T) (n : ℕ) (h : ℕ → T) (i1 i2 : ℕ) (x : T) :
    ℕ → T :=
  if i1 ≥ i2 then h
  else applyFold op h (mcaList (fuelFor n) (leafIdx n i1) (leafIdx n (i2 - 1))) x

/-- `gutter_apply::copy(i1, i2, output)`: consolidate the ancestors of the
range root-down, then emit the leaves in order.  Returns the new heap and the
emitted values. -/
def gaCopyRange (op : T → T → T) (e : T) (n : ℕ) (h : ℕ → T) (i1 i2 : ℕ) :
    (ℕ → T) × List T :=
  if i1 ≥ i2 then (h, [])
  else
    let L := leafIdx n i1
    let R := leafIdx n (i2 - 1)
    let h' := consFold op e h (rdPair n (L / 2) (R / 2))
    (h', (walkList n (fuelFor n) L (R + 1)).map h')

/-- Modelled from the spec: `gutter_apply` has no bulk range-assign in the
sources; §4.2 prescribes consolidating (root-down) every ancestor of the
range and then writing the leaves; the consolidation walk is the one
`gutter_apply::copy` uses and the leaf write is `functor_set_from_iter` over
the ordered leaf walk, mirroring `gutter_retrieve::assign(i1, i2, input)`. -/
def gaAssignRange (op : T → T → T) (e : T) (n : ℕ) (h : ℕ → T) (i1 i2 : ℕ)
    (xs : List T) : ℕ → T :=
  if i1 ≥ i2 then h
  else
    let L := leafIdx n i1
    let R := leafIdx n (i2 - 1)
    let h' := consFold op e h (rdPair n (L / 2) (R / 2))
    setFold h' (walkList n (fuelFor n) L (R + 1)) xs

/-- `gutter_retrieve::operator[]` (point read): direct cell read. -/
def grReadOne (n : ℕ) (h : ℕ → T) (i : ℕ) : T := h (leafIdx n i)

/-- `gutter_retrieve::assign(leaf_no, x)` (point assign): write the leaf cell,
then recompute every ancestor leaf-up. -/
def grAssignOne (op : T → T → T) (n : ℕ) (h : ℕ → T) (i : ℕ) (x : T) : ℕ → T :=
  let l := leafIdx n i
  updFold op (upd h l x) (pathL (l / 2))

/-- `gutter_retrieve::apply(leaf_no, x)` (point apply): combine into the leaf
cell, then recompute every ancestor leaf-up. -/
def grApplyOne (op : T → T → T) (n : ℕ) (h : ℕ → T) (i : ℕ) (x : T) : ℕ → T :=
  let l := leafIdx n i
  updFold op (upd h l (op (h l) x)) (pathL (l / 2))

/-- `gutter_retrieve::accumulate(leaf1, leaf2)`: fold the combining operation
over the canonical decomposition of `[leaf1, leaf2)`. -/
def grAccumulate (op : T → T → T) (e : T) (n : ℕ) (h : ℕ → T) (i1 i2 : ℕ) : T :=
  if i1 ≥ i2 then e
  else getFold op e h (mcaList (fuelFor n) (leafIdx n i1) (leafIdx n (i2 - 1)))

/-- `gutter_retrieve::assign(i1, i2, input)` (bulk assign): write the leaves in
order, then recompute the affected ancestors with the pair leaf-up walk. -/
def grAssignRange (op : T → T → T) (n : ℕ) (h : ℕ → T) (i1 i2 : ℕ)
    (xs : List T) : ℕ → T :=
  if i1 ≥ i2 then h
  else
    let L := leafIdx n i1
    let R := leafIdx n (i2 - 1)
    let h' := setFold h (walkList n (fuelFor n) L (R + 1)) xs
    updFold op h' (luPairList n (L / 2) (R / 2))

/-- `gutter_retrieve` constructor from an initial sequence: the base
constructor leaves the buffer uninitialised (modelled by an arbitrary junk
value), and `assign(0, source.size(), source.begin())` fills it. -/
def grCtorList (op : T → T → T) (junk : T) (xs : List T) : ℕ → T :=
  grAssignRange op xs.length (freshHeap junk) 0 xs.length xs

/-- Modelled from the spec: `gutter_retrieve` has no bulk range-copy in the
sources; §4.1's ordered leaf walk applied to this variant (whose leaf cells
hold the element values directly) emits the leaves of `[i1, i2)` in order. -/
def grCopyRange (n : ℕ) (h : ℕ → T) (i1 i2 : ℕ) : List T :=
  if i1 ≥ i2 then []
  else (walkList n (fuelFor n) (leafIdx n i1) (leafIdx n (i2 - 1) + 1)).map h

/-- A sequence of `gutter_apply::apply(i1, i2, x)` calls, applied in order. -/
def gaApplyCalls (op : T → T → T) (n : ℕ) (h : ℕ → T)
    (calls : List (ℕ × ℕ × T)) : ℕ → T :=
  calls.foldl (fun hh c => gaApplyRange op n hh c.1 c.2.1 c.2.2) h

/-- Heaps of a `gutter_retrieve` tree reachable by construction (either the
identity-filling size constructor or the initializer-list constructor)
followed by any sequence of mutating calls. -/
inductive GrReachable (op : T → T → T) (e : T) (n : ℕ) : (ℕ → T) → Prop where
  | ctor_fill : GrReachable op e n (freshHeap e)
  | ctor_list (junk : T) (xs : List T) (hl : xs.length = n) :
      GrReachable op e n (grCtorList op junk xs)
  | assign_one {h : ℕ → T} (i : ℕ) (x : T) (hi : i < n)
      (hr : GrReachable op e n h) : GrReachable op e n (grAssignOne op n h i x)
  | apply_one {h : ℕ → T} (i : ℕ) (x : T) (hi : i < n)
      (hr : GrReachable op e n h) : GrReachable op e n (grApplyOne op n h i x)
  | assign_range {h : ℕ → T} (i1 i2 : ℕ) (xs : List T) (h1 : i1 ≤ i2)
      (h2 : i2 ≤ n) (hr : GrReachable op e n h) :
      GrReachable op e n (grAssignRange op n h i1 i2 xs)

/-- The `gutter_retrieve` structural invariant: every internal node's cell is
the combination of its two children's cells. -/
def HeapInv (op : T → T → T) (n : ℕ) (h : ℕ → T) : Prop :=
  ∀ j, 1 ≤ j → j < n → h j = op (h (2 * j)) (h (2 * j + 1))

/-- For a visitation list, every visited node whose parent is an internal
node is followed (later in the list) by that parent. -/
def parentsAfter (n : ℕ) : List ℕ → Prop
  | [] => True
  | v :: rest => (¬(1 ≤ v / 2 ∧ v / 2 < n) ∨ v / 2 ∈ rest) ∧ parentsAfter n rest

/-- Freshness relation between an earlier and a later visited node: the later
node clobbers neither the earlier node nor its children. -/
def NoClob (a b : ℕ) : Prop := b ≠ a ∧ b ≠ 2 * a ∧ b ≠ 2 * a + 1

end Ops

/-! Unfolding lemmas for the fuel-indexed definitions: with sufficient fuel
each helper satisfies the loop's natural recurrence. -/

theorem msbA_irrel : ∀ f g v, v ≤ f → v ≤ g → msbA f v = msbA g v := by
  intro f
  induction f with
  | zero =>
    intro g v hf hg
    interval_cases v
    cases g <;> simp [msbA]
  | succ f ih =>
    intro g v hf hg
    cases g with
    | zero =>
      interval_cases v
      simp [msbA]
    | succ g =>
      show msbA (f + 1) v = msbA (g + 1) v
      simp only [msbA]
      split
      · rfl
      · rw [ih g (v / 2) (by omega) (by omega)]

theorem msb_unfold (v : ℕ) : msb v = if v ≤ 1 then v else 2 * msb (v / 2) := by
  show msbA v v = _
  cases v with
  | zero => simp [msbA]
  | succ w =>
    show msbA (w + 1) (w + 1) = _
    simp only [msbA]
    split
    · rfl
    · rw [msbA_irrel w ((w + 1) / 2) ((w + 1) / 2) (by omega) (by omega)]
      rfl

theorem pathLA_irrel : ∀ f g j, j ≤ f → j ≤ g → pathLA f j = pathLA g j := by
  intro f
  induction f with
  | zero =>
    intro g j hf hg
    interval_cases j
    cases g <;> simp [pathLA]
  | succ f ih =>
    intro g j hf hg
    cases g with
    | zero =>
      interval_cases j
      simp [pathLA]
    | succ g =>
      show pathLA (f + 1) j = pathLA (g + 1) j
      simp only [pathLA]
      split
      · rfl
      · rw [ih g (j / 2) (by omega) (by omega)]

theorem pathL_unfold (j : ℕ) :
    pathL j = if j = 0 then [] else j :: pathL (j / 2) := by
  show pathLA j j = _
  cases j with
  | zero => simp [pathLA]
  | succ w =>
    show pathLA (w + 1) (w + 1) = _
    simp only [pathLA]
    split
    · omega
    · rw [pathLA_irrel w ((w + 1) / 2) ((w + 1) / 2) (by omega) (by omega)]
      rfl

theorem ancInRowA_zero (f r : ℕ) : ancInRowA f 0 r = 0 := by
  cases f with
  | zero => rfl
  | succ f =>
    show (if 1 ≤ r ∧ r ≤ 0 / 2 then ancInRowA f (0 / 2) r else 0) = 0
    rw [if_neg (by omega)]

theorem ancInRowA_irrel : ∀ f g j r, j ≤ f → j ≤ g →
    ancInRowA f j r = ancInRowA g j r := by
  intro f
  induction f with
  | zero =>
    intro g j r hf hg
    interval_cases j
    rw [ancInRowA_zero, ancInRowA_zero]
  | succ f ih =>
    intro g j r hf hg
    cases g with
    | zero =>
      interval_cases j
      rw [ancInRowA_zero, ancInRowA_zero]
    | succ g =>
      show ancInRowA (f + 1) j r = ancInRowA (g + 1) j r
      simp only [ancInRowA]
      split
      · exact ih g (j / 2) r (by omega) (by omega)
      · rfl

theorem ancInRow_unfold (j r : ℕ) :
    ancInRow j r = if 1 ≤ r ∧ r ≤ j / 2 then ancInRow (j / 2) r else j := by
  show ancInRowA j j r = _
  cases j with
  | zero =>
    rw [ancInRowA_zero, if_neg (by omega)]
  | succ w =>
    show ancInRowA (w + 1) (w + 1) r = _
    simp only [ancInRowA]
    split
    · rw [ancInRowA_irrel w ((w + 1) / 2) ((w + 1) / 2) r (by omega) (by omega)]
      rfl
    · rfl

theorem pow2sLTA_irrel : ∀ f g i b, b - i ≤ f → b - i ≤ g →
    pow2sLTA f i b = pow2sLTA g i b := by
  intro f
  induction f with
  | zero =>
    intro g i b hf hg
    cases g with
    | zero => rfl
    | succ g =>
      show pow2sLTA 0 i b = pow2sLTA (g + 1) i b
      simp only [pow2sLTA]
      split
      · omega
      · rfl
  | succ f ih =>
    intro g i b hf hg
    cases g with
    | zero =>
      show pow2sLTA (f + 1) i b = pow2sLTA 0 i b
      simp only [pow2sLTA]
      split
      · omega
      · rfl
    | succ g =>
      show pow2sLTA (f + 1) i b = pow2sLTA (g + 1) i b
      simp only [pow2sLTA]
      split
      · rw [ih g (2 * i) b (by omega) (by omega)]
      · rfl

theorem pow2sLT_unfold (i b : ℕ) :
    pow2sLT i b = if 1 ≤ i ∧ i < b then i :: pow2sLT (2 * i) b else [] := by
  show pow2sLTA b i b = _
  cases b with
  | zero =>
    simp only [pow2sLTA]
    split
    · omega
    · rfl
  | succ c =>
    show pow2sLTA (c + 1) i (c + 1) = _
    simp only [pow2sLTA]
    split
    · rw [pow2sLTA_irrel c (c + 1) (2 * i) (c + 1) (by omega) (by omega)]
      rfl
    · rfl

theorem pow2sLEA_irrel : ∀ f g i b, b + 1 - i ≤ f → b + 1 - i ≤ g →
    pow2sLEA f i b = pow2sLEA g i b := by
  intro f
  induction f with
  | zero =>
    intro g i b hf hg
    cases g with
    | zero => rfl
    | succ g =>
      show pow2sLEA 0 i b = pow2sLEA (g + 1) i b
      simp only [pow2sLEA]
      split
      · omega
      · rfl
  | succ f ih =>
    intro g i b hf hg
    cases g with
    | zero =>
      show pow2sLEA (f + 1) i b = pow2sLEA 0 i b
      simp only [pow2sLEA]
      split
      · omega
      · rfl
    | succ g =>
      show pow2sLEA (f + 1) i b = pow2sLEA (g + 1) i b
      simp only [pow2sLEA]
      split
      · rw [ih g (2 * i) b (by omega) (by omega)]
      · rfl

theorem pow2sLE_unfold (i b : ℕ) :
    pow2sLE i b = if 1 ≤ i ∧ i ≤ b then i :: pow2sLE (2 * i) b else [] := by
  show pow2sLEA (b + 1) i b = _
  simp only [pow2sLEA]
  split
  · rw [pow2sLEA_irrel b (b + 1) (2 * i) b (by omega) (by omega)]
    rfl
  · rfl

theorem luAuxA_irrel : ∀ f g i1 i2, i1 ≤ f → i1 ≤ g →
    luAuxA f i1 i2 = luAuxA g i1 i2 := by
  intro f
  induction f with
  | zero =>
    intro g i1 i2 hf hg
    interval_cases i1
    cases g <;> simp [luAuxA]
  | succ f ih =>
    intro g i1 i2 hf hg
    cases g with
    | zero =>
      interval_cases i1
      simp [luAuxA]
    | succ g =>
      show luAuxA (f + 1) i1 i2 = luAuxA (g + 1) i1 i2
      simp only [luAuxA]
      split
      · rw [ih g (i1 / 2) (i2 / 2) (by omega) (by omega)]
      · rfl

theorem luAux_unfold (i1 i2 : ℕ) :
    luAux i1 i2 =
      if 1 ≤ i1 then List.range' i1 (i2 + 1 - i1) ++ luAux (i1 / 2) (i2 / 2)
      else [] := by
  show luAuxA i1 i1 i2 = _
  cases i1 with
  | zero => simp [luAuxA]
  | succ w =>
    show luAuxA (w + 1) (w + 1) i2 = _
    simp only [luAuxA]
    split
    · rw [luAuxA_irrel w ((w + 1) / 2) ((w + 1) / 2) (i2 / 2) (by omega) (by omega)]
      rfl
    · rfl

/-! Basic facts about `msb`, `Dn`, `leafIdx` and `posIdx`. -/

/-- A power of two. -/
def Pow2 (x : ℕ) : Prop := ∃ k, x = 2 ^ k

theorem msb_one_le {v : ℕ} (hv : 1 ≤ v) : 1 ≤ msb v := by
  induction v using Nat.strong_induction_on with
  | _ v ih =>
    rw [msb_unfold]
    split
    · omega
    · have h2 : 1 ≤ v / 2 := by omega
      have := ih (v / 2) (by omega) h2
      omega

theorem msb_le {v : ℕ} (hv : 1 ≤ v) : msb v ≤ v := by
  induction v using Nat.strong_induction_on with
  | _ v ih =>
    rw [msb_unfold]
    split
    · omega
    · have h2 : 1 ≤ v / 2 := by omega
      have := ih (v / 2) (by omega) h2
      omega

theorem lt_two_msb {v : ℕ} (hv : 1 ≤ v) : v < 2 * msb v := by
  induction v using Nat.strong_induction_on with
  | _ v ih =>
    rw [msb_unfold]
    split
    · omega
    · have h2 : 1 ≤ v / 2 := by omega
      have := ih (v / 2) (by omega) h2
      omega

theorem msb_pow2 {v : ℕ} (hv : 1 ≤ v) : Pow2 (msb v) := by
  induction v using Nat.strong_induction_on with
  | _ v ih =>
    rw [msb_unfold]
    split
    · exact ⟨0, by omega⟩
    · have h2 : 1 ≤ v / 2 := by omega
      obtain ⟨k, hk⟩ := ih (v / 2) (by omega) h2
      exact ⟨k + 1, by rw [hk]; ring⟩

theorem pow2_two_mul_le {x y : ℕ} (hx : Pow2 x) (hy : Pow2 y) (hxy : x < y) :
    2 * x ≤ y := by
  obtain ⟨a, rfl⟩ := hx
  obtain ⟨b, rfl⟩ := hy
  have hab : a < b := (Nat.pow_lt_pow_iff_right (by omega : 1 < 2)).mp hxy
  calc 2 * 2 ^ a = 2 ^ (a + 1) := by ring
  _ ≤ 2 ^ b := Nat.pow_le_pow_right (by omega) (by omega)

/-- A power of two in `[n, 2n-1]` is unique (it is `Dn n`). -/
theorem pow2_unique {n x y : ℕ} (hx : Pow2 x) (hy : Pow2 y)
    (hx1 : n ≤ x) (hx2 : x ≤ 2 * n - 1) (hy1 : n ≤ y) (hy2 : y ≤ 2 * n - 1) :
    x = y := by
  rcases Nat.lt_trichotomy x y with h | h | h
  · have := pow2_two_mul_le hx hy h
    omega
  · exact h
  · have := pow2_two_mul_le hy hx h
    omega

theorem Dn_le {n : ℕ} (hn : 1 ≤ n) : Dn n ≤ 2 * n - 1 :=
  msb_le (by omega)

theorem lt_two_Dn {n : ℕ} (hn : 1 ≤ n) : 2 * n - 1 < 2 * Dn n :=
  lt_two_msb (by omega)

theorem le_Dn {n : ℕ} (hn : 1 ≤ n) : n ≤ Dn n := by
  have := lt_two_Dn hn
  omega

theorem Dn_pow2 {n : ℕ} (hn : 1 ≤ n) : Pow2 (Dn n) :=
  msb_pow2 (by omega)

theorem leafIdx_lb {n k : ℕ} (hn : 1 ≤ n) (hk : k < n) : n ≤ leafIdx n k := by
  have h1 := le_Dn hn
  have h2 := Dn_le hn
  unfold leafIdx
  split <;> omega

theorem leafIdx_ub {n k : ℕ} (hn : 1 ≤ n) (hk : k < n) :
    leafIdx n k ≤ 2 * n - 1 := by
  have h1 := le_Dn hn
  have h2 := Dn_le hn
  unfold leafIdx
  split <;> omega

theorem posIdx_leafIdx {n k : ℕ} (hn : 1 ≤ n) (hk : k < n) :
    posIdx n (leafIdx n k) = k := by
  have h1 := le_Dn hn
  have h2 := Dn_le hn
  unfold leafIdx posIdx
  split <;> split <;> omega

theorem leafIdx_posIdx {n j : ℕ} (hn : 1 ≤ n) (hj1 : n ≤ j)
    (hj2 : j ≤ 2 * n - 1) : leafIdx n (posIdx n j) = j := by
  have h1 := le_Dn hn
  have h2 := Dn_le hn
  unfold leafIdx posIdx
  split <;> split <;> omega

theorem posIdx_lt {n j : ℕ} (hn : 1 ≤ n) (hj1 : n ≤ j) (hj2 : j ≤ 2 * n - 1) :
    posIdx n j < n := by
  have h1 := le_Dn hn
  have h2 := Dn_le hn
  unfold posIdx
  split <;> omega

theorem leafIdx_inj {n k1 k2 : ℕ} (hn : 1 ≤ n) (h1 : k1 < n) (h2 : k2 < n)
    (he : leafIdx n k1 = leafIdx n k2) : k1 = k2 := by
  have := posIdx_leafIdx hn h1
  have := posIdx_leafIdx hn h2
  rw [← posIdx_leafIdx hn h1, he, posIdx_leafIdx hn h2]

/-! Claim theorems: leaf addressing (C4), empty-range behaviour (C8, C9). -/

/-- C4: for every `n ≥ 1`, the leaf-addressing function `index_nth_leaf` maps
logical leaf `k ∈ [0,n)` to `k + D` (reduced by `n` when `k + D ≥ 2n`, with
`D` the highest power of two `≤ 2n-1`), is injective, its image is exactly
the set of childless cells of the `1..2n-1` buffer, and every internal node
(one with a left child) also has a right child. -/
theorem gutter_C4 (n : ℕ) (hn : 1 ≤ n) :
    (∀ k, k < n → leafIdx n k =
      (if k + Dn n < 2 * n then k + Dn n else k + Dn n - n)) ∧
    (∀ k1 k2, k1 < n → k2 < n → leafIdx n k1 = leafIdx n k2 → k1 = k2) ∧
    (∀ j, 1 ≤ j → j ≤ 2 * n - 1 →
      ((2 * n - 1 < 2 * j) ↔ ∃ k, k < n ∧ leafIdx n k = j)) ∧
    (∀ j, 1 ≤ j → 2 * j ≤ 2 * n - 1 → 2 * j + 1 ≤ 2 * n - 1) := by
  refine ⟨fun k _ => rfl, fun k1 k2 h1 h2 he => leafIdx_inj hn h1 h2 he,
    fun j hj1 hj2 => ?_, fun j hj1 hj2 => by omega⟩
  constructor
  · intro hchildless
    have hjn : n ≤ j := by omega
    exact ⟨posIdx n j, posIdx_lt hn hjn hj2, leafIdx_posIdx hn hjn hj2⟩
  · rintro ⟨k, hk, rfl⟩
    have := leafIdx_lb hn hk
    omega

/-- Witness for C4 at `n = 3`. -/
theorem gutter_C4_witness :
    (1 ≤ 3) ∧
    ((∀ k, k < 3 → leafIdx 3 k =
        (if k + Dn 3 < 2 * 3 then k + Dn 3 else k + Dn 3 - 3)) ∧
      (∀ k1 k2, k1 < 3 → k2 < 3 → leafIdx 3 k1 = leafIdx 3 k2 → k1 = k2) ∧
      (∀ j, 1 ≤ j → j ≤ 2 * 3 - 1 →
        ((2 * 3 - 1 < 2 * j) ↔ ∃ k, k < 3 ∧ leafIdx 3 k = j)) ∧
      (∀ j, 1 ≤ j → 2 * j ≤ 2 * 3 - 1 → 2 * j + 1 ≤ 2 * 3 - 1)) :=
  ⟨by omega, gutter_C4 3 (by omega)⟩

/-- C8: for every range-taking operation of the two variants (range apply,
range copy, bulk range assign, accumulate), an empty range `i1 = i2 = i`
leaves the heap unchanged, emits/charges nothing, and `accumulate` returns
the identity. -/
theorem gutter_C8 {T : Type} (op : T → T → T) (e : T) (n : ℕ) (h : ℕ → T)
    (i : ℕ) (x : T) (xs : List T) :
    gaApplyRange op n h i i x = h ∧
    gaCopyRange op e n h i i = (h, []) ∧
    gaAssignRange op e n h i i xs = h ∧
    grAssignRange op n h i i xs = h ∧
    grAccumulate op e n h i i = e := by
  refine ⟨?_, ?_, ?_, ?_, ?_⟩ <;>
    simp [gaApplyRange, gaCopyRange, gaAssignRange, grAssignRange, grAccumulate]

/-- C9: `accumulate(i, i)` over the empty range returns exactly the identity
element, for every heap state, with an empty visitation. -/
theorem gutter_C9 {T : Type} (op : T → T → T) (e : T) (n : ℕ) (h : ℕ → T)
    (i : ℕ) : grAccumulate op e n h i i = e := by
  simp [grAccumulate]

/-- C5: the `gutter_apply` scenario with `n = 5` and integer sum: after
`apply(1,4,10)` the point reads give `0, 10, 10, 0` at `0, 1, 3, 4`; after a
further `assign(2,5)` the read at `2` gives `15` and the read at `1` is
still `10`. -/
theorem gutter_C5 :
    gaReadOne (· + ·) (0 : ℤ) 5
      (gaApplyRange (· + ·) 5 (freshHeap 0) 1 4 10) 0 = 0 ∧
    gaReadOne (· + ·) (0 : ℤ) 5
      (gaApplyRange (· + ·) 5 (freshHeap 0) 1 4 10) 1 = 10 ∧
    gaReadOne (· + ·) (0 : ℤ) 5
      (gaApplyRange (· + ·) 5 (freshHeap 0) 1 4 10) 3 = 10 ∧
    gaReadOne (· + ·) (0 : ℤ) 5
      (gaApplyRange (· + ·) 5 (freshHeap 0) 1 4 10) 4 = 0 ∧
    gaReadOne (· + ·) (0 : ℤ) 5
      (gaAssignOne (· + ·) 0 5
        (gaApplyRange (· + ·) 5 (freshHeap 0) 1 4 10) 2 5) 2 = 15 ∧
    gaReadOne (· + ·) (0 : ℤ) 5
      (gaAssignOne (· + ·) 0 5
        (gaApplyRange (· + ·) 5 (freshHeap 0) 1 4 10) 2 5) 1 = 10 := by
  decide

/-- C6 counterexample: in the `gutter_retrieve` scenario with `n = 8`, sum,
constructed from `[1,…,8]`, after `apply(0,10)` the full-range accumulate is
`46 = 11+2+3+4+5+6+7+8`, not `47` as the claim states. -/
theorem gutter_C6_cex :
    grAccumulate (· + ·) (0 : ℤ) 8
      (grApplyOne (· + ·) 8 (grCtorList (· + ·) 0 [1, 2, 3, 4, 5, 6, 7, 8]) 0 10)
      0 8 ≠ 47 := by
  decide

/-- C6 as amended: `accumulate(2,5) = 12`; after `apply(0,10)`,
`operator[](0) = 11`; and `accumulate(0,8)` then returns `46` (the claim's
`47` miscounts the sum `11+2+…+8`). -/
theorem gutter_C6 :
    grAccumulate (· + ·) (0 : ℤ) 8
      (grCtorList (· + ·) 0 [1, 2, 3, 4, 5, 6, 7, 8]) 2 5 = 12 ∧
    grReadOne 8
      (grApplyOne (· + ·) 8 (grCtorList (· + ·) 0 [1, 2, 3, 4, 5, 6, 7, 8]) 0 10)
      0 = 11 ∧
    grAccumulate (· + ·) (0 : ℤ) 8
      (grApplyOne (· + ·) 8 (grCtorList (· + ·) 0 [1, 2, 3, 4, 5, 6, 7, 8]) 0 10)
      0 8 = 46 := by
  refine ⟨by decide, by decide, by decide⟩

/-- C2 counterexample: list concatenation is associative with two-sided
identity `[]`, yet after `applyRange(0,2,[1])` then `applyRange(0,1,[2])` on a
fresh `n = 2` tree, `readOne(0)` returns `[2,1]`, not the call-order fold
`([] ++ [1]) ++ [2] = [1,2]` the claim requires: the leaf-up read visits the
leaf cell before the ancestor cell, so without commutativity the call order
is not respected. -/
theorem gutter_C2_cex :
    (∀ a b c : List ℕ, (a ++ b) ++ c = a ++ (b ++ c)) ∧
    (∀ a : List ℕ, a ++ [] = a ∧ [] ++ a = a) ∧
    gaReadOne (· ++ ·) ([] : List ℕ) 2
      (gaApplyCalls (· ++ ·) 2 (freshHeap []) [(0, 2, [1]), (0, 1, [2])]) 0
      ≠ ([] ++ [1]) ++ [2] :=
  ⟨fun a b c => List.append_assoc a b c,
   fun a => ⟨List.append_nil a, List.nil_append a⟩, by decide⟩

/-! Facts about `pathL` (leaf-up ancestor chains) and cell writes. -/

theorem pathL_zero : pathL 0 = [] := rfl

theorem pathL_succ {j : ℕ} (hj : j ≠ 0) : pathL j = j :: pathL (j / 2) := by
  rw [pathL_unfold, if_neg hj]

theorem mem_pathL_le {w : ℕ} : ∀ j, w ∈ pathL j → w ≤ j := by
  intro j
  induction j using Nat.strong_induction_on with
  | _ j ih =>
    intro hw
    rcases Nat.eq_zero_or_pos j with rfl | hj
    · simp [pathL_zero] at hw
    · rw [pathL_succ (by omega)] at hw
      rcases List.mem_cons.mp hw with rfl | hw
      · exact le_refl _
      · have := ih (j / 2) (by omega) hw
        omega

theorem mem_pathL_pos {w : ℕ} : ∀ j, w ∈ pathL j → 1 ≤ w := by
  intro j
  induction j using Nat.strong_induction_on with
  | _ j ih =>
    intro hw
    rcases Nat.eq_zero_or_pos j with rfl | hj
    · simp [pathL_zero] at hw
    · rw [pathL_succ (by omega)] at hw
      rcases List.mem_cons.mp hw with rfl | hw
      · omega
      · exact ih (j / 2) (by omega) hw

theorem mem_pathL_cases {w j : ℕ} (hw : w ∈ pathL j) : w = j ∨ w ≤ j / 2 := by
  rcases Nat.eq_zero_or_pos j with rfl | hj
  · simp [pathL_zero] at hw
  · rw [pathL_succ (by omega)] at hw
    rcases List.mem_cons.mp hw with rfl | hw
    · exact Or.inl rfl
    · exact Or.inr (mem_pathL_le _ hw)

theorem foldl_congr_on {T : Type} (op : T → T → T) (h1 h2 : ℕ → T) :
    ∀ (vs : List ℕ), (∀ w ∈ vs, h1 w = h2 w) → ∀ b,
      vs.foldl (fun r w => op r (h1 w)) b = vs.foldl (fun r w => op r (h2 w)) b := by
  intro vs
  induction vs with
  | nil => intro _ b; rfl
  | cons v vs ih =>
    intro ha b
    simp only [List.foldl_cons]
    rw [ha v (by simp), ih (fun w hw => ha w (by simp [hw]))]

theorem upd_same {T : Type} (h : ℕ → T) (j : ℕ) (x : T) : upd h j x j = x := by
  simp [upd]

theorem upd_other {T : Type} (h : ℕ → T) (j w : ℕ) (x : T) (hw : w ≠ j) :
    upd h j x w = h w := by
  simp [upd, hw]

theorem consolidateAt_parent {T : Type} (op : T → T → T) (e : T) (h : ℕ → T)
    (a : ℕ) : consolidateAt op e h a a = e := by
  simp [consolidateAt, upd]

theorem consolidateAt_left {T : Type} (op : T → T → T) (e : T) (h : ℕ → T)
    {a : ℕ} (ha : 1 ≤ a) : consolidateAt op e h a (2 * a) = op (h (2 * a)) (h a) := by
  unfold consolidateAt
  rw [upd_other _ _ _ _ (by omega), upd_other _ _ _ _ (by omega), upd_same]

theorem consolidateAt_right {T : Type} (op : T → T → T) (e : T) (h : ℕ → T)
    {a : ℕ} (ha : 1 ≤ a) :
    consolidateAt op e h a (2 * a + 1) = op (h (2 * a + 1)) (h a) := by
  unfold consolidateAt
  rw [upd_other _ _ _ _ (by omega), upd_same]

theorem consolidateAt_other {T : Type} (op : T → T → T) (e : T) (h : ℕ → T)
    {a w : ℕ} (h1 : w ≠ a) (h2 : w ≠ 2 * a) (h3 : w ≠ 2 * a + 1) :
    consolidateAt op e h a w = h w := by
  unfold consolidateAt
  rw [upd_other _ _ _ _ h1, upd_other _ _ _ _ h3, upd_other _ _ _ _ h2]

/-- Consolidating any internal node `a` preserves the leaf-up accumulated
value along every ancestor chain that does not start at `a` itself: the
pending value moves one step down the chain, which associativity and the
right identity absorb. -/
theorem consolidateAt_fold_path {T : Type} (op : T → T → T) (e : T)
    (hassoc : ∀ a b c, op (op a b) c = op a (op b c))
    (hidr : ∀ a, op a e = a) (h : ℕ → T) {a : ℕ} (ha : 1 ≤ a) :
    ∀ v, v ≠ a → ∀ b,
      (pathL v).foldl (fun r w => op r (consolidateAt op e h a w)) b =
      (pathL v).foldl (fun r w => op r (h w)) b := by
  intro v
  induction v using Nat.strong_induction_on with
  | _ v ih =>
    intro hva b
    rcases Nat.eq_zero_or_pos v with rfl | hv
    · rw [pathL_zero]
      rfl
    · by_cases hchild : v = 2 * a ∨ v = 2 * a + 1
      · have hv2 : v / 2 = a := by rcases hchild with rfl | rfl <;> omega
        rw [pathL_succ (by omega), hv2, pathL_succ (by omega)]
        simp only [List.foldl_cons]
        have hv' : consolidateAt op e h a v = op (h v) (h a) := by
          rcases hchild with rfl | rfl
          · exact consolidateAt_left op e h ha
          · exact consolidateAt_right op e h ha
        rw [hv', consolidateAt_parent]
        rw [foldl_congr_on op (consolidateAt op e h a) h (pathL (a / 2))
          (fun w hw => by
            have hle := mem_pathL_le _ hw
            exact consolidateAt_other op e h (by omega) (by omega) (by omega))]
        rw [hidr, hassoc]
      · push_neg at hchild
        have hne1 : v ≠ 2 * a := hchild.1
        have hne2 : v ≠ 2 * a + 1 := hchild.2
        have hlt : v / 2 < v := by omega
        have hna : v / 2 ≠ a := by omega
        rw [pathL_succ (by omega)]
        simp only [List.foldl_cons]
        rw [consolidateAt_other op e h hva hne1 hne2]
        exact ih (v / 2) hlt hna _

/-- Consolidating a list of internal nodes, none of which is `v`, preserves
the leaf-up accumulated value along the chain from `v`. -/
theorem consFold_fold_path {T : Type} (op : T → T → T) (e : T)
    (hassoc : ∀ a b c, op (op a b) c = op a (op b c))
    (hidr : ∀ a, op a e = a) {v : ℕ} :
    ∀ (vs : List ℕ) (h : ℕ → T), (∀ a ∈ vs, 1 ≤ a ∧ a ≠ v) →
      (pathL v).foldl (fun r w => op r (consFold op e h vs w)) e =
      (pathL v).foldl (fun r w => op r (h w)) e := by
  intro vs
  induction vs with
  | nil => intro h _; rfl
  | cons a vs ih =>
    intro h hvs
    have ha := hvs a (by simp)
    show (pathL v).foldl (fun r w => op r (consFold op e (consolidateAt op e h a) vs w)) e = _
    rw [ih (consolidateAt op e h a) (fun a' ha' => hvs a' (by simp [ha']))]
    exact consolidateAt_fold_path op e hassoc hidr h ha.1 v (fun hc => ha.2 hc.symm) e

theorem pow2sLTA_mem : ∀ (f i b w : ℕ), w ∈ pow2sLTA f i b → i ≤ w ∧ w < b := by
  intro f
  induction f with
  | zero => intro i b w hw; simp [pow2sLTA] at hw
  | succ f ih =>
    intro i b w hw
    simp only [pow2sLTA] at hw
    split at hw
    · rcases List.mem_cons.mp hw with rfl | hw
      · omega
      · have := ih (2 * i) b w hw
        omega
    · simp at hw

theorem pow2sLT_mem {i b w : ℕ} (hw : w ∈ pow2sLT i b) : i ≤ w ∧ w < b :=
  pow2sLTA_mem b i b w hw

theorem ancInRowA_le : ∀ (f j r : ℕ), ancInRowA f j r ≤ j := by
  intro f
  induction f with
  | zero => intro j r; exact le_refl _
  | succ f ih =>
    intro j r
    show (if 1 ≤ r ∧ r ≤ j / 2 then ancInRowA f (j / 2) r else j) ≤ j
    split
    · have := ih (j / 2) r
      omega
    · exact le_refl _

theorem ancInRow_le (j r : ℕ) : ancInRow j r ≤ j := ancInRowA_le j j r

theorem ancInRowA_pos : ∀ (f j r : ℕ), 1 ≤ j → 1 ≤ ancInRowA f j r := by
  intro f
  induction f with
  | zero => intro j r hj; exact hj
  | succ f ih =>
    intro j r hj
    show 1 ≤ if 1 ≤ r ∧ r ≤ j / 2 then ancInRowA f (j / 2) r else j
    split
    · exact ih (j / 2) r (by omega)
    · exact hj

theorem ancInRow_pos {j : ℕ} (r : ℕ) (hj : 1 ≤ j) : 1 ≤ ancInRow j r :=
  ancInRowA_pos j j r hj

theorem rdSingle_mem {p a : ℕ} (ha : a ∈ rdSingle p) : 1 ≤ a ∧ a ≤ p := by
  unfold rdSingle at ha
  rcases List.mem_map.mp ha with ⟨i, hi, rfl⟩
  have hp := pow2sLT_mem hi
  exact ⟨ancInRow_pos i (by omega), ancInRow_le p i⟩

/-- C10: for the range-update/point-query tree over an associative operation
with two-sided identity, `assign(i, x)` preserves the value `operator[](j)`
reads at every other index `j ≠ i`. -/
theorem gutter_C10 {T : Type} (op : T → T → T) (e : T)
    (hassoc : ∀ a b c, op (op a b) c = op a (op b c))
    (hidr : ∀ a, op a e = a) (hidl : ∀ a, op e a = a)
    (n : ℕ) (hn : 1 ≤ n) (h : ℕ → T) (i j : ℕ) (x : T)
    (hi : i < n) (hj : j < n) (hne : j ≠ i) :
    gaReadOne op e n (gaAssignOne op e n h i x) j = gaReadOne op e n h j := by
  unfold gaReadOne gaAssignOne getFold
  set li := leafIdx n i with hli
  set lj := leafIdx n j with hlj
  set h' := consFold op e h (rdSingle (li / 2)) with hh'
  have hlib := leafIdx_lb hn hi
  have hliu := leafIdx_ub hn hi
  have hljb := leafIdx_lb hn hj
  have hlju := leafIdx_ub hn hj
  have hstep1 : (pathL lj).foldl (fun r w => op r (upd h' li (op (h' li) x) w)) e =
      (pathL lj).foldl (fun r w => op r (h' w)) e := by
    apply foldl_congr_on
    intro w hw
    apply upd_other
    rcases mem_pathL_cases hw with rfl | hwle
    · intro hc
      exact hne (leafIdx_inj hn hj hi (hlj ▸ hli ▸ hc))
    · omega
  rw [hstep1, hh']
  apply consFold_fold_path op e hassoc hidr
  intro a ha
  have := rdSingle_mem ha
  omega

/-- Witness for C10: integer sum, `n = 2`, assigning at `0` preserves the
read at `1`. -/
theorem gutter_C10_witness :
    gaReadOne (· + ·) (0 : ℤ) 2 (gaAssignOne (· + ·) 0 2 (freshHeap 3) 0 5) 1 =
      gaReadOne (· + ·) (0 : ℤ) 2 (freshHeap 3) 1 :=
  gutter_C10 (· + ·) 0 (fun a b c => add_assoc a b c) (fun a => add_zero a)
    (fun a => zero_add a) 2 (by omega) (freshHeap 3) 0 1 5 (by omega) (by omega)
    (by omega)

/-! The structural invariant of `gutter_retrieve` (C3): machinery for
`functor_update_parent` folds over visitation lists. -/

theorem setFold_not_mem {T : Type} {w : ℕ} :
    ∀ (vs : List ℕ) (xs : List T) (h : ℕ → T), w ∉ vs →
      setFold h vs xs w = h w := by
  intro vs
  induction vs with
  | nil => intro xs h _; rfl
  | cons v vs ih =>
    intro xs h hw
    cases xs with
    | nil => rfl
    | cons x xs =>
      show setFold (upd h v x) vs xs w = h w
      rw [ih xs _ (by simp at hw; exact hw.2)]
      exact upd_other h v w x (by simp at hw; exact hw.1)

theorem updFold_not_mem {T : Type} (op : T → T → T) {w : ℕ} :
    ∀ (vs : List ℕ) (h : ℕ → T), w ∉ vs → updFold op h vs w = h w := by
  intro vs
  induction vs with
  | nil => intro h _; rfl
  | cons v vs ih =>
    intro h hw
    show updFold op (updateParent op h v) vs w = h w
    rw [ih _ (by simp at hw; exact hw.2)]
    exact upd_other h v w _ (by simp at hw; exact hw.1)

theorem self_mem_pathL {q : ℕ} (hq : 1 ≤ q) : q ∈ pathL q := by
  rw [pathL_succ (by omega)]
  simp

theorem pathL_parentsAfter (n : ℕ) : ∀ q, parentsAfter n (pathL q) := by
  intro q
  induction q using Nat.strong_induction_on with
  | _ q ih =>
    rcases Nat.eq_zero_or_pos q with rfl | hq
    · rw [pathL_zero]; trivial
    · rw [pathL_succ (by omega)]
      refine ⟨?_, ih (q / 2) (by omega)⟩
      rcases Nat.eq_zero_or_pos (q / 2) with hz | hpos
      · exact Or.inl (by omega)
      · exact Or.inr (self_mem_pathL hpos)

theorem pathL_pairwise : ∀ q, (pathL q).Pairwise NoClob := by
  intro q
  induction q using Nat.strong_induction_on with
  | _ q ih =>
    rcases Nat.eq_zero_or_pos q with rfl | hq
    · rw [pathL_zero]; exact List.Pairwise.nil
    · rw [pathL_succ (by omega)]
      refine List.pairwise_cons.mpr ⟨?_, ih (q / 2) (by omega)⟩
      intro b hb
      have := mem_pathL_le _ hb
      refine ⟨by omega, by omega, by omega⟩

/-- The main invariant-restoration lemma: folding `functor_update_parent`
over a visitation list in which no node or child is clobbered after being
written, and in which every visited node's internal parent appears later,
establishes the structural invariant, provided it already held at the
unvisited internal nodes. -/
theorem updFold_inv {T : Type} (op : T → T → T) (n : ℕ) :
    ∀ (vs : List ℕ) (h : ℕ → T), vs.Pairwise NoClob → parentsAfter n vs →
      (∀ j, 1 ≤ j → j < n → j ∉ vs → h j = op (h (2 * j)) (h (2 * j + 1))) →
      HeapInv op n (updFold op h vs) := by
  intro vs
  induction vs with
  | nil =>
    intro h _ _ hexc
    intro j hj1 hjn
    exact hexc j hj1 hjn (by simp)
  | cons v rest ih =>
    intro h hpw hpa hexc
    obtain ⟨hvrest, hpwr⟩ := List.pairwise_cons.mp hpw
    obtain ⟨hcond, hpar⟩ := hpa
    show HeapInv op n (updFold op (updateParent op h v) rest)
    apply ih (updateParent op h v) hpwr hpar
    intro j hj1 hjn hjr
    by_cases hjv : j = v
    · subst hjv
      have h2j : (2 * j : ℕ) ≠ j := by omega
      have h2j1 : (2 * j + 1 : ℕ) ≠ j := by omega
      show updateParent op h j j = op (updateParent op h j (2 * j)) (updateParent op h j (2 * j + 1))
      unfold updateParent
      rw [upd_same, upd_other _ _ _ _ h2j, upd_other _ _ _ _ h2j1]
    · have hjvs : j ∉ v :: rest := by simp [hjv, hjr]
      have hinv := hexc j hj1 hjn hjvs
      have h2jv : (2 * j : ℕ) ≠ v := by
        intro hc
        rcases hcond with hc' | hc'
        · exact hc' ⟨by omega, by omega⟩
        · exact hjr (by rw [show j = v / 2 by omega]; exact hc')
      have h2j1v : (2 * j + 1 : ℕ) ≠ v := by
        intro hc
        rcases hcond with hc' | hc'
        · exact hc' ⟨by omega, by omega⟩
        · exact hjr (by rw [show j = v / 2 by omega]; exact hc')
      unfold updateParent
      rw [upd_other _ _ _ _ hjv, upd_other _ _ _ _ h2jv, upd_other _ _ _ _ h2j1v]
      exact hinv

/-- A leaf-cell write followed by the leaf-up parent recomputation restores
the invariant of the point-update tree. -/
theorem inv_upd_leaf_path {T : Type} (op : T → T → T) {n : ℕ} (hn : 1 ≤ n)
    {h : ℕ → T} (hinv : HeapInv op n h) {l : ℕ} (hl1 : n ≤ l)
    (hl2 : l ≤ 2 * n - 1) (y : T) :
    HeapInv op n (updFold op (upd h l y) (pathL (l / 2))) := by
  apply updFold_inv op n _ _ (pathL_pairwise _) (pathL_parentsAfter n _)
  intro j hj1 hjn hjp
  have hjl : j ≠ l := by omega
  have h2jl : (2 * j : ℕ) ≠ l := by
    intro hc
    have : j = l / 2 := by omega
    exact hjp (this ▸ self_mem_pathL (by omega))
  have h2j1l : (2 * j + 1 : ℕ) ≠ l := by
    intro hc
    have : j = l / 2 := by omega
    exact hjp (this ▸ self_mem_pathL (by omega))
  rw [upd_other _ _ _ _ hjl, upd_other _ _ _ _ h2jl, upd_other _ _ _ _ h2j1l]
  exact hinv j hj1 hjn

/-! Row arithmetic, leaf-walk shapes, and the pair leaf-up visitation. -/

theorem pow2_half {p : ℕ} (hp : Pow2 p) (h2 : 2 ≤ p) :
    p = 2 * (p / 2) ∧ Pow2 (p / 2) := by
  obtain ⟨k, rfl⟩ := hp
  cases k with
  | zero => omega
  | succ k =>
    constructor
    · have : (2 : ℕ) ^ (k + 1) = 2 * 2 ^ k := by ring
      omega
    · exact ⟨k, by
        have : (2 : ℕ) ^ (k + 1) = 2 * 2 ^ k := by ring
        omega⟩

theorem msb_eq_of_pow2 {p x : ℕ} (hp : Pow2 p) (h1 : p ≤ x) (h2 : x < 2 * p) :
    msb x = p := by
  have hx1 : 1 ≤ x := by
    obtain ⟨k, rfl⟩ := hp
    have := Nat.one_le_two_pow (n := k)
    omega
  have hle := msb_le hx1
  have hlt := lt_two_msb hx1
  have hpow := msb_pow2 hx1
  rcases Nat.lt_trichotomy (msb x) p with h | h | h
  · have := pow2_two_mul_le hpow hp h
    omega
  · exact h
  · have := pow2_two_mul_le hp hpow h
    omega

theorem msb_div2 {v : ℕ} (hv : 2 ≤ v) : msb (v / 2) = msb v / 2 := by
  have h := msb_unfold v
  rw [if_neg (by omega)] at h
  omega

/-- Plain segment of the ordered leaf walk: no wrap is crossed. -/
theorem walk_plain (n : ℕ) :
    ∀ (c f i : ℕ), c + 1 ≤ f → i + c + 1 ≤ 2 * n →
      walkList n f i (i + c + 1) = List.range' i (c + 1) := by
  intro c
  induction c with
  | zero =>
    intro f i hf hi
    cases f with
    | zero => omega
    | succ f =>
      show walkList n (f + 1) i (i + 0 + 1) = _
      unfold walkList
      rw [if_neg (by omega)]
      simp
  | succ c ih =>
    intro f i hf hi
    cases f with
    | zero => omega
    | succ f =>
      show walkList n (f + 1) i (i + (c + 1) + 1) = _
      unfold walkList
      rw [if_neg (by omega), if_neg (by omega)]
      rw [show i + (c + 1) + 1 = (i + 1) + c + 1 by omega]
      rw [ih f (i + 1) (by omega) (by omega)]
      rw [List.range'_succ i (c + 1) 1]

/-- The leaf walk starting at the sentinel position `2n` resets to leaf `n`
and then walks plainly. -/
theorem walk_from_2n (n : ℕ) (hn : 1 ≤ n) :
    ∀ (c f : ℕ), c + 1 ≤ f → n + c + 1 ≤ 2 * n →
      walkList n f (2 * n) (n + c + 1) = List.range' n (c + 1) := by
  intro c f hf hi
  cases f with
  | zero => omega
  | succ f =>
    show walkList n (f + 1) (2 * n) (n + c + 1) = _
    unfold walkList
    rw [if_pos rfl]
    cases c with
    | zero =>
      rw [if_pos (by omega)]
      simp
    | succ c =>
      rw [if_neg (by omega)]
      rw [show n + (c + 1) + 1 = (n + 1) + c + 1 by omega]
      rw [walk_plain n c f (n + 1) (by omega) (by omega)]
      rw [List.range'_succ n (c + 1) 1]

/-- Wrapping segment of the ordered leaf walk: from a deep-row cell `i` the
walk visits `i .. 2n-1` and then `n .. R`. -/
theorem walk_wrap (n : ℕ) (hn : 1 ≤ n) :
    ∀ (d f i R : ℕ), i = 2 * n - 1 - d → R + 1 ≤ i → n ≤ R →
      (2 * n - i) + (R + 1 - n) ≤ f →
      walkList n f i (R + 1) =
        List.range' i (2 * n - i) ++ List.range' n (R + 1 - n) := by
  intro d
  induction d with
  | zero =>
    intro f i R hi hRi hnR hf
    cases f with
    | zero => omega
    | succ f =>
      subst hi
      simp only [Nat.sub_zero] at *
      show walkList n (f + 1) (2 * n - 1) (R + 1) = _
      unfold walkList
      rw [if_neg (by omega), if_neg (by omega)]
      rw [show (2 * n - 1) + 1 = 2 * n by omega]
      rw [show R + 1 = n + (R - n) + 1 by omega]
      rw [walk_from_2n n hn (R - n) f (by omega) (by omega)]
      rw [show 2 * n - (2 * n - 1) = 1 by omega,
        show n + (R - n) + 1 - n = R - n + 1 by omega]
      rfl
  | succ d ih =>
    intro f i R hi hRi hnR hf
    cases f with
    | zero => omega
    | succ f =>
      show walkList n (f + 1) i (R + 1) = _
      unfold walkList
      rw [if_neg (by omega), if_neg (by omega)]
      rw [ih f (i + 1) R (by omega) (by omega) hnR (by omega)]
      rw [show 2 * n - i = (2 * n - (i + 1)) + 1 by omega]
      rw [List.range'_succ i (2 * n - (i + 1)) 1]
      rfl

theorem luAux_zero (i2 : ℕ) : luAux 0 i2 = [] := rfl

theorem luAux_succ {i1 : ℕ} (i2 : ℕ) (h : 1 ≤ i1) :
    luAux i1 i2 = List.range' i1 (i2 + 1 - i1) ++ luAux (i1 / 2) (i2 / 2) := by
  rw [luAux_unfold, if_pos h]

theorem luAux_members {w : ℕ} :
    ∀ i1 i2, w ∈ luAux i1 i2 → 1 ≤ w ∧ w ≤ i2 := by
  intro i1
  induction i1 using Nat.strong_induction_on with
  | _ i1 ih =>
    intro i2 hw
    rcases Nat.eq_zero_or_pos i1 with rfl | h1
    · rw [luAux_zero] at hw
      simp at hw
    · rw [luAux_succ i2 h1] at hw
      rcases List.mem_append.mp hw with hw | hw
      · have := List.mem_range'_1.mp hw
        omega
      · have := ih (i1 / 2) (by omega) (i2 / 2) hw
        omega

theorem luAux_block_mem {i1 i2 w : ℕ} (h1 : 1 ≤ i1) (hw1 : i1 ≤ w)
    (hw2 : w ≤ i2) : w ∈ luAux i1 i2 := by
  rw [luAux_succ i2 h1]
  exact List.mem_append_left _ (List.mem_range'_1.mpr ⟨hw1, by omega⟩)

theorem pa_append {n : ℕ} :
    ∀ (l1 l2 : List ℕ), (∀ v ∈ l1, ¬(1 ≤ v / 2 ∧ v / 2 < n) ∨ v / 2 ∈ l2) →
      parentsAfter n l2 → parentsAfter n (l1 ++ l2) := by
  intro l1
  induction l1 with
  | nil => intro l2 _ h2; exact h2
  | cons v l1 ih =>
    intro l2 hv h2
    refine ⟨?_, ih l2 (fun w hw => hv w (by simp [hw])) h2⟩
    rcases hv v (by simp) with h | h
    · exact Or.inl h
    · exact Or.inr (List.mem_append_right _ h)

theorem luAux_pairwise :
    ∀ i1 i2, 1 ≤ i1 → i1 ≤ i2 → msb i1 = msb i2 →
      (luAux i1 i2).Pairwise NoClob := by
  intro i1
  induction i1 using Nat.strong_induction_on with
  | _ i1 ih =>
    intro i2 h1 h12 hrow
    have hle1 := msb_le h1
    have hlt2 := lt_two_msb (show 1 ≤ i2 by omega)
    rw [← hrow] at hlt2
    rw [luAux_succ i2 h1]
    rw [List.pairwise_append]
    refine ⟨?_, ?_, ?_⟩
    · apply (List.pairwise_lt_range' i1 (i2 + 1 - i1)).imp_of_mem
      intro a b ha hb hab
      have ha' := List.mem_range'_1.mp ha
      have hb' := List.mem_range'_1.mp hb
      exact ⟨by omega, by omega, by omega⟩
    · rcases Nat.lt_or_ge i1 2 with h2 | h2
      · have : i1 = 1 := by omega
        subst this
        simp [luAux_zero]
      · exact ih (i1 / 2) (by omega) (i2 / 2) (by omega) (by omega)
          (by rw [msb_div2 h2, msb_div2 (by omega : 2 ≤ i2), hrow])
    · intro a ha b hb
      have ha' := List.mem_range'_1.mp ha
      have hb' := luAux_members (i1 / 2) (i2 / 2) hb
      exact ⟨by omega, by omega, by omega⟩

theorem luAux_parentsAfter (n : ℕ) :
    ∀ i1 i2, 1 ≤ i1 → i1 ≤ i2 → msb i1 = msb i2 →
      parentsAfter n (luAux i1 i2) := by
  intro i1
  induction i1 using Nat.strong_induction_on with
  | _ i1 ih =>
    intro i2 h1 h12 hrow
    have hle1 := msb_le h1
    have hlt2 := lt_two_msb (show 1 ≤ i2 by omega)
    rw [← hrow] at hlt2
    rw [luAux_succ i2 h1]
    rcases Nat.lt_or_ge i1 2 with h2 | h2
    · have hi1 : i1 = 1 := by omega
      subst hi1
      have hi2 : i2 = 1 := by
        have h1' : msb 1 = 1 := rfl
        rw [h1'] at hrow
        omega
      subst hi2
      refine pa_append _ _ ?_ trivial
      intro v hv
      have := List.mem_range'_1.mp hv
      exact Or.inl (by omega)
    · apply pa_append
      · intro v hv
        have hv' := List.mem_range'_1.mp hv
        exact Or.inr (luAux_block_mem (by omega) (by omega)
          (by omega : v / 2 ≤ i2 / 2))
      · exact ih (i1 / 2) (by omega) (i2 / 2) (by omega) (by omega)
          (by rw [msb_div2 h2, msb_div2 (by omega : 2 ≤ i2), hrow])

/-- For a power-of-two row start `r`, `luAux r (2r-1)` visits every node in
`[1, 2r-1]`. -/
theorem luAux_covers :
    ∀ r, Pow2 r → 1 ≤ r → ∀ w, 1 ≤ w → w ≤ 2 * r - 1 → w ∈ luAux r (2 * r - 1) := by
  intro r
  induction r using Nat.strong_induction_on with
  | _ r ih =>
    intro hp h1 w hw1 hw2
    rcases Nat.lt_or_ge w r with hwr | hwr
    · have h2 : 2 ≤ r := by omega
      obtain ⟨heq, hp2⟩ := pow2_half hp h2
      rw [luAux_succ _ h1]
      apply List.mem_append_right
      have hdiv : (2 * r - 1) / 2 = 2 * (r / 2) - 1 := by omega
      rw [hdiv]
      exact ih (r / 2) (by omega) hp2 (by omega) w hw1 (by omega)
    · exact luAux_block_mem h1 hwr hw2

theorem pow2_ge4 {p : ℕ} (hp : Pow2 p) (h3 : 3 ≤ p) : 4 ≤ p := by
  obtain ⟨k, rfl⟩ := hp
  match k with
  | 0 => omega
  | 1 => omega
  | k + 2 =>
    have : (4 : ℕ) = 2 ^ 2 := by norm_num
    calc (4 : ℕ) = 2 ^ 2 := by norm_num
    _ ≤ 2 ^ (k + 2) := Nat.pow_le_pow_right (by omega) (by omega)

theorem leafIdx_if (n k : ℕ) :
    leafIdx n k = if k + Dn n < 2 * n then k + Dn n else k + Dn n - n := rfl

/-- Core of the bulk-assign invariant argument: writing into leaf cells `W`
and then folding `functor_update_parent` over a well-shaped visitation list
`vs` that covers every parent of `W` establishes the invariant. -/
theorem bulk_core {T : Type} (op : T → T → T) (n : ℕ) (h : ℕ → T)
    (xs : List T) (W vs : List ℕ)
    (hWlow : ∀ w ∈ W, n ≤ w)
    (hcov : ∀ w ∈ W, 1 ≤ w / 2 → w / 2 < n → w / 2 ∈ vs)
    (hpw : vs.Pairwise NoClob) (hpa : parentsAfter n vs)
    (hexc : ∀ j, 1 ≤ j → j < n → j ∉ vs → h j = op (h (2 * j)) (h (2 * j + 1))) :
    HeapInv op n (updFold op (setFold h W xs) vs) := by
  apply updFold_inv op n vs _ hpw hpa
  intro j hj1 hjn hjvs
  have hjW : j ∉ W := fun hc => by have := hWlow j hc; omega
  have h2jW : (2 * j) ∉ W := fun hc => by
    have := hcov (2 * j) hc (by omega) (by omega)
    rw [show 2 * j / 2 = j by omega] at this
    exact hjvs this
  have h2j1W : (2 * j + 1) ∉ W := fun hc => by
    have := hcov (2 * j + 1) hc (by omega) (by omega)
    rw [show (2 * j + 1) / 2 = j by omega] at this
    exact hjvs this
  rw [setFold_not_mem W xs h hjW, setFold_not_mem W xs h h2jW,
    setFold_not_mem W xs h h2j1W]
  exact hexc j hj1 hjn hjvs

/-- The bulk range assign of `gutter_retrieve` establishes the invariant,
provided it already held at every internal node its pair leaf-up walk does
not visit. -/
theorem bulk_inv {T : Type} (op : T → T → T) {n : ℕ} (h : ℕ → T) {i1 i2 : ℕ}
    (h12 : i1 < i2) (h2n : i2 ≤ n) (xs : List T)
    (hexc : ∀ j, 1 ≤ j → j < n →
      j ∉ luPairList n (leafIdx n i1 / 2) (leafIdx n (i2 - 1) / 2) →
      h j = op (h (2 * j)) (h (2 * j + 1))) :
    HeapInv op n (grAssignRange op n h i1 i2 xs) := by
  rcases Nat.lt_or_ge n 2 with hn2 | hn2
  · intro j hj1 hjn
    omega
  have hn : 1 ≤ n := by omega
  have hD1 := le_Dn hn
  have hD2 := Dn_le hn
  have hD3 := lt_two_Dn hn
  have hDp := Dn_pow2 hn
  have hk2 : i2 - 1 < n := by omega
  have hi1n : i1 < n := by omega
  have hL1 : n ≤ leafIdx n i1 := leafIdx_lb hn hi1n
  have hL2 : leafIdx n i1 ≤ 2 * n - 1 := leafIdx_ub hn hi1n
  have hR1 : n ≤ leafIdx n (i2 - 1) := leafIdx_lb hn hk2
  have hR2 : leafIdx n (i2 - 1) ≤ 2 * n - 1 := leafIdx_ub hn hk2
  have hDeven := pow2_half hDp (by omega)
  unfold grAssignRange
  rw [if_neg (by omega)]
  show HeapInv op n (updFold op
    (setFold h (walkList n (fuelFor n) (leafIdx n i1) (leafIdx n (i2 - 1) + 1)) xs)
    (luPairList n (leafIdx n i1 / 2) (leafIdx n (i2 - 1) / 2)))
  by_cases hA : i1 + Dn n < 2 * n <;> by_cases hB : (i2 - 1) + Dn n < 2 * n
  · -- both leaf cells in the deepest row
    have hLv : leafIdx n i1 = i1 + Dn n := by rw [leafIdx_if, if_pos hA]
    have hRv : leafIdx n (i2 - 1) = (i2 - 1) + Dn n := by rw [leafIdx_if, if_pos hB]
    have hLR : leafIdx n i1 ≤ leafIdx n (i2 - 1) := by omega
    have hW : walkList n (fuelFor n) (leafIdx n i1) (leafIdx n (i2 - 1) + 1) =
        List.range' (leafIdx n i1) (leafIdx n (i2 - 1) - leafIdx n i1 + 1) := by
      rw [show leafIdx n (i2 - 1) + 1 =
        leafIdx n i1 + (leafIdx n (i2 - 1) - leafIdx n i1) + 1 by omega]
      exact walk_plain n _ _ _ (by unfold fuelFor; omega) (by omega)
    have hvs : luPairList n (leafIdx n i1 / 2) (leafIdx n (i2 - 1) / 2) =
        luAux (leafIdx n i1 / 2) (leafIdx n (i2 - 1) / 2) := by
      unfold luPairList
      rw [if_neg (by omega)]
    have hrow1 : msb (leafIdx n i1 / 2) = Dn n / 2 :=
      msb_eq_of_pow2 hDeven.2 (by omega) (by omega)
    have hrow2 : msb (leafIdx n (i2 - 1) / 2) = Dn n / 2 :=
      msb_eq_of_pow2 hDeven.2 (by omega) (by omega)
    rw [hW, hvs]
    apply bulk_core
    · intro w hw
      have := List.mem_range'_1.mp hw
      omega
    · intro w hw _ _
      have hww := List.mem_range'_1.mp hw
      exact luAux_block_mem (by omega) (by omega) (by omega)
    · exact luAux_pairwise _ _ (by omega) (by omega) (by rw [hrow1, hrow2])
    · exact luAux_parentsAfter n _ _ (by omega) (by omega) (by rw [hrow1, hrow2])
    · intro j hj1 hjn hj
      exact hexc j hj1 hjn (by rwa [hvs])
  · -- left leaf deep, right leaf in the upper row: the wrap case
    have hwrap : n < Dn n := by omega
    have hn3 : 3 ≤ n := by
      rcases Nat.lt_or_ge n 3 with hc | hc
      · interval_cases n
        · have : Dn 2 = 2 := rfl
          omega
      · exact hc
    have hD4 : 4 ≤ Dn n := pow2_ge4 hDp (by omega)
    have hD4even := pow2_half hDeven.2 (by omega)
    have hLv : leafIdx n i1 = i1 + Dn n := by rw [leafIdx_if, if_pos hA]
    have hRv : leafIdx n (i2 - 1) = (i2 - 1) + Dn n - n := by
      rw [leafIdx_if, if_neg hB]
    have hRD : leafIdx n (i2 - 1) < Dn n := by omega
    have hLD : Dn n ≤ leafIdx n i1 := by omega
    have hW : walkList n (fuelFor n) (leafIdx n i1) (leafIdx n (i2 - 1) + 1) =
        List.range' (leafIdx n i1) (2 * n - leafIdx n i1) ++
          List.range' n (leafIdx n (i2 - 1) + 1 - n) := by
      exact walk_wrap n hn (2 * n - 1 - leafIdx n i1) (fuelFor n) _ _
        (by omega) (by omega) (by omega) (by unfold fuelFor; omega)
    have hp1 : Dn n / 2 ≤ leafIdx n i1 / 2 := by omega
    have hp1' : leafIdx n i1 / 2 ≤ n - 1 := by omega
    have hp2 : n / 2 ≤ leafIdx n (i2 - 1) / 2 := by omega
    have hp2' : leafIdx n (i2 - 1) / 2 ≤ Dn n / 2 - 1 := by omega
    have hgt : leafIdx n i1 / 2 > leafIdx n (i2 - 1) / 2 := by omega
    have hrow1 : msb (leafIdx n i1 / 2) = Dn n / 2 :=
      msb_eq_of_pow2 hDeven.2 (by omega) (by omega)
    have hm : ancInRow (2 * n - 1) (msb (leafIdx n i1 / 2)) = n - 1 := by
      rw [hrow1, ancInRow_unfold, if_pos (by omega)]
      rw [show (2 * n - 1) / 2 = n - 1 by omega]
      rw [ancInRow_unfold, if_neg (by omega)]
    have hvs : luPairList n (leafIdx n i1 / 2) (leafIdx n (i2 - 1) / 2) =
        List.range' (leafIdx n i1 / 2) (n - 1 + 1 - leafIdx n i1 / 2) ++
          luAux (leafIdx n i1 / 2 / 2) (leafIdx n (i2 - 1) / 2) := by
      unfold luPairList
      rw [if_pos hgt, hm]
    have hq1 : Dn n / 2 / 2 ≤ leafIdx n i1 / 2 / 2 := by omega
    have hq1' : leafIdx n i1 / 2 / 2 < Dn n / 2 := by omega
    have hrowq : msb (leafIdx n i1 / 2 / 2) = Dn n / 2 / 2 :=
      msb_eq_of_pow2 hD4even.2 (by omega) (by omega)
    have hrow2 : msb (leafIdx n (i2 - 1) / 2) = Dn n / 2 / 2 :=
      msb_eq_of_pow2 hD4even.2 (by omega) (by omega)
    have hq12 : leafIdx n i1 / 2 / 2 ≤ leafIdx n (i2 - 1) / 2 := by omega
    have hq1pos : 1 ≤ leafIdx n i1 / 2 / 2 := by omega
    rw [hW, hvs]
    apply bulk_core
    · intro w hw
      rcases List.mem_append.mp hw with hw | hw
      · have := List.mem_range'_1.mp hw
        omega
      · have := List.mem_range'_1.mp hw
        omega
    · intro w hw hw1 hw2
      rcases List.mem_append.mp hw with hw | hw
      · have hww := List.mem_range'_1.mp hw
        exact List.mem_append_left _
          (List.mem_range'_1.mpr ⟨by omega, by omega⟩)
      · have hww := List.mem_range'_1.mp hw
        exact List.mem_append_right _
          (luAux_block_mem hq1pos (by omega) (by omega))
    · rw [List.pairwise_append]
      refine ⟨?_, ?_, ?_⟩
      · apply (List.pairwise_lt_range' _ _).imp_of_mem
        intro a b ha hb hab
        have ha' := List.mem_range'_1.mp ha
        have hb' := List.mem_range'_1.mp hb
        exact ⟨by omega, by omega, by omega⟩
      · exact luAux_pairwise _ _ hq1pos hq12 (by rw [hrowq, hrow2])
      · intro a ha b hb
        have ha' := List.mem_range'_1.mp ha
        have hb' := luAux_members _ _ hb
        exact ⟨by omega, by omega, by omega⟩
    · apply pa_append
      · intro v hv
        have hv' := List.mem_range'_1.mp hv
        exact Or.inr (luAux_block_mem hq1pos (by omega) (by omega))
      · exact luAux_parentsAfter n _ _ hq1pos hq12 (by rw [hrowq, hrow2])
    · intro j hj1 hjn hj
      exact hexc j hj1 hjn (by rwa [hvs])
  · -- left leaf upper, right leaf deep: impossible since i1 ≤ i2-1
    omega
  · -- both leaf cells in the upper row
    have hwrap : n < Dn n := by omega
    have hn3 : 3 ≤ n := by
      rcases Nat.lt_or_ge n 3 with hc | hc
      · interval_cases n
        · have : Dn 2 = 2 := rfl
          omega
      · exact hc
    have hD4 : 4 ≤ Dn n := pow2_ge4 hDp (by omega)
    have hD4even := pow2_half hDeven.2 (by omega)
    have hLv : leafIdx n i1 = i1 + Dn n - n := by rw [leafIdx_if, if_neg hA]
    have hRv : leafIdx n (i2 - 1) = (i2 - 1) + Dn n - n := by
      rw [leafIdx_if, if_neg hB]
    have hLR : leafIdx n i1 ≤ leafIdx n (i2 - 1) := by omega
    have hRD : leafIdx n (i2 - 1) < Dn n := by omega
    have hW : walkList n (fuelFor n) (leafIdx n i1) (leafIdx n (i2 - 1) + 1) =
        List.range' (leafIdx n i1) (leafIdx n (i2 - 1) - leafIdx n i1 + 1) := by
      rw [show leafIdx n (i2 - 1) + 1 =
        leafIdx n i1 + (leafIdx n (i2 - 1) - leafIdx n i1) + 1 by omega]
      exact walk_plain n _ _ _ (by unfold fuelFor; omega) (by omega)
    have hvs : luPairList n (leafIdx n i1 / 2) (leafIdx n (i2 - 1) / 2) =
        luAux (leafIdx n i1 / 2) (leafIdx n (i2 - 1) / 2) := by
      unfold luPairList
      rw [if_neg (by omega)]
    have hrow1 : msb (leafIdx n i1 / 2) = Dn n / 2 / 2 :=
      msb_eq_of_pow2 hD4even.2 (by omega) (by omega)
    have hrow2 : msb (leafIdx n (i2 - 1) / 2) = Dn n / 2 / 2 :=
      msb_eq_of_pow2 hD4even.2 (by omega) (by omega)
    rw [hW, hvs]
    apply bulk_core
    · intro w hw
      have := List.mem_range'_1.mp hw
      omega
    · intro w hw _ _
      have hww := List.mem_range'_1.mp hw
      exact luAux_block_mem (by omega) (by omega) (by omega)
    · exact luAux_pairwise _ _ (by omega) (by omega) (by rw [hrow1, hrow2])
    · exact luAux_parentsAfter n _ _ (by omega) (by omega) (by rw [hrow1, hrow2])
    · intro j hj1 hjn hj
      exact hexc j hj1 hjn (by rwa [hvs])

/-- For the full range `[0, n)`, the pair leaf-up walk of the bulk assign
visits every internal node, so the initializer-list constructor establishes
the invariant even over an uninitialised buffer. -/
theorem luPair_full_cover {n : ℕ} (hn : 2 ≤ n) :
    ∀ j, 1 ≤ j → j < n →
      j ∈ luPairList n (leafIdx n 0 / 2) (leafIdx n (n - 1) / 2) := by
  intro j hj1 hjn
  have hn1 : 1 ≤ n := by omega
  have hD1 := le_Dn hn1
  have hD2 := Dn_le hn1
  have hD3 := lt_two_Dn hn1
  have hDp := Dn_pow2 hn1
  have hDeven := pow2_half hDp (by omega)
  have hLv : leafIdx n 0 = Dn n := by
    rw [leafIdx_if, if_pos (by omega)]
    omega
  by_cases hB : (n - 1) + Dn n < 2 * n
  · -- `n = D`: all leaves in the deepest row
    have hnD : Dn n = n := by omega
    have hRv : leafIdx n (n - 1) = (n - 1) + Dn n := by rw [leafIdx_if, if_pos hB]
    have hp1 : leafIdx n 0 / 2 = Dn n / 2 := by omega
    have hp2 : leafIdx n (n - 1) / 2 = Dn n - 1 := by omega
    unfold luPairList
    rw [if_neg (by omega), hp1, hp2]
    have hcov := luAux_covers (Dn n / 2) hDeven.2 (by omega) j hj1 (by omega)
    rw [show 2 * (Dn n / 2) - 1 = Dn n - 1 by omega] at hcov
    exact hcov
  · -- wrap: the last leaf is in the upper row
    have hwrap : n < Dn n := by omega
    have hn3 : 3 ≤ n := by
      rcases Nat.lt_or_ge n 3 with hc | hc
      · interval_cases n
        · have : Dn 2 = 2 := rfl
          omega
      · exact hc
    have hD4 : 4 ≤ Dn n := pow2_ge4 hDp (by omega)
    have hD4even := pow2_half hDeven.2 (by omega)
    have hRv : leafIdx n (n - 1) = (n - 1) + Dn n - n := by
      rw [leafIdx_if, if_neg hB]
    have hp1 : leafIdx n 0 / 2 = Dn n / 2 := by omega
    have hp2 : leafIdx n (n - 1) / 2 = Dn n / 2 - 1 := by omega
    have hrow1 : msb (Dn n / 2) = Dn n / 2 :=
      msb_eq_of_pow2 hDeven.2 (le_refl _) (by omega)
    have hm : ancInRow (2 * n - 1) (msb (Dn n / 2)) = n - 1 := by
      rw [hrow1, ancInRow_unfold, if_pos (by omega)]
      rw [show (2 * n - 1) / 2 = n - 1 by omega]
      rw [ancInRow_unfold, if_neg (by omega)]
    unfold luPairList
    rw [hp1, hp2, if_pos (by omega), hm]
    rcases Nat.lt_or_ge j (Dn n / 2) with hj | hj
    · apply List.mem_append_right
      have hcov := luAux_covers (Dn n / 2 / 2) hD4even.2 (by omega) j hj1 (by omega)
      rw [show 2 * (Dn n / 2 / 2) - 1 = Dn n / 2 - 1 by omega] at hcov
      exact hcov
    · exact List.mem_append_left _ (List.mem_range'_1.mpr ⟨hj, by omega⟩)

/-- Every reachable `gutter_retrieve` heap satisfies the structural
invariant; shared between the invariant claim and the accumulate claim. -/
theorem reachable_inv {T : Type} (op : T → T → T) (e : T)
    (hidl : ∀ a, op e a = a) (n : ℕ) (h : ℕ → T)
    (hr : GrReachable op e n h) : HeapInv op n h := by
  induction hr with
  | ctor_fill =>
    intro j _ _
    show e = op e e
    rw [hidl]
  | ctor_list junk xs hl =>
    rcases Nat.lt_or_ge xs.length 1 with hlen | hlen
    · unfold grCtorList grAssignRange
      rw [if_pos (by omega)]
      intro j hj1 hjn
      omega
    · unfold grCtorList
      rcases Nat.lt_or_ge xs.length 2 with hlen2 | hlen2
      · have hx1 : xs.length = 1 := by omega
        subst hl
        intro j hj1 hjn
        omega
      · subst hl
        apply bulk_inv op _ (by omega) (le_refl _) xs
        intro j hj1 hjn hj
        exact absurd (luPair_full_cover hlen2 j hj1 hjn) hj
  | assign_one i x hi hr ih =>
    have hn : 1 ≤ n := by omega
    exact inv_upd_leaf_path op hn ih (leafIdx_lb hn hi) (leafIdx_ub hn hi) x
  | apply_one i x hi hr ih =>
    have hn : 1 ≤ n := by omega
    exact inv_upd_leaf_path op hn ih (leafIdx_lb hn hi) (leafIdx_ub hn hi) _
  | assign_range i1 i2 xs h1 h2 hr ih =>
    rcases Nat.lt_or_ge i1 i2 with hlt | hge
    · exact bulk_inv op _ hlt h2 xs (fun j hj1 hjn _ => ih j hj1 hjn)
    · unfold grAssignRange
      rw [if_pos hge]
      exact ih

/-- C3: every reachable `gutter_retrieve` heap (from either constructor,
through any sequence of point assigns, point applies and bulk range assigns)
satisfies the structural invariant
`heap[j] = combine(heap[2j], heap[2j+1])` at every internal node `j`. -/
theorem gutter_C3 {T : Type} (op : T → T → T) (e : T)
    (hidl : ∀ a, op e a = a) (n : ℕ) (h : ℕ → T)
    (hr : GrReachable op e n h) : HeapInv op n h :=
  reachable_inv op e hidl n h hr

/-- Witness for C3: integer sum on the tree built from `[5, 7]`. -/
theorem gutter_C3_witness :
    HeapInv (· + ·) 2 (grCtorList (· + ·) (0 : ℤ) [5, 7]) :=
  gutter_C3 (· + ·) 0 (fun a => zero_add a) 2 _
    (GrReachable.ctor_list 0 [5, 7] rfl)

/-! Subtree leaf spans: `leafLo`, `leafHi`, `leavesUnder`, and the spatial
adjacency facts underlying the canonical range decomposition (C1). -/

theorem pow2_one : Pow2 1 := ⟨0, rfl⟩

theorem pow2_double {x : ℕ} (hx : Pow2 x) : Pow2 (2 * x) := by
  obtain ⟨k, rfl⟩ := hx
  exact ⟨k + 1, by ring⟩

theorem pow2_of_two_mul {x : ℕ} (h1 : 1 ≤ x) (hx : Pow2 (2 * x)) : Pow2 x := by
  obtain ⟨k, hk⟩ := hx
  cases k with
  | zero => omega
  | succ k =>
    refine ⟨k, ?_⟩
    have : (2 : ℕ) ^ (k + 1) = 2 * 2 ^ k := by ring
    omega

theorem pow2_not_odd {u : ℕ} (h3 : 3 ≤ u) (hodd : u % 2 = 1) : ¬Pow2 u := by
  rintro ⟨k, rfl⟩
  cases k with
  | zero => omega
  | succ k =>
    have : (2 : ℕ) ^ (k + 1) = 2 * 2 ^ k := by ring
    omega

theorem msb_pow2_self {x : ℕ} (hx : Pow2 x) : msb x = x := by
  have h1 : 1 ≤ x := by
    obtain ⟨k, rfl⟩ := hx
    exact Nat.one_le_two_pow
  exact msb_eq_of_pow2 hx (le_refl x) (by omega)

theorem msb_mono : ∀ b a, a ≤ b → msb a ≤ msb b := by
  intro b
  induction b using Nat.strong_induction_on with
  | _ b ih =>
    intro a hab
    rcases Nat.lt_or_ge a 2 with ha | ha
    · interval_cases a
      · simp [msb, msbA]
      · have h1 : msb 1 = 1 := rfl
        have := msb_one_le (show 1 ≤ b by omega)
        omega
    · have hb : 2 ≤ b := by omega
      rw [msb_unfold a, if_neg (by omega), msb_unfold b, if_neg (by omega)]
      have := ih (b / 2) (by omega) (a / 2) (by omega)
      omega

theorem msb_succ_eq {v : ℕ} (h1 : 1 ≤ v) (h : ¬Pow2 (v + 1)) :
    msb (v + 1) = msb v := by
  have hm := msb_mono (v + 1) v (by omega)
  rcases Nat.lt_or_ge (msb v) (msb (v + 1)) with hlt | hge
  · exfalso
    have h2 := pow2_two_mul_le (msb_pow2 h1) (msb_pow2 (by omega)) hlt
    have h3 := lt_two_msb h1
    have h4 := msb_le (show 1 ≤ v + 1 by omega)
    have h5 : msb (v + 1) = v + 1 := by omega
    exact h (h5 ▸ msb_pow2 (by omega))
  · omega

theorem leafLo_leaf {n j : ℕ} (h : n ≤ j) : leafLo n j = j := by
  rw [leafLo, if_pos (Or.inl h)]

theorem leafLo_step {n j : ℕ} (h1 : 1 ≤ j) (h2 : j < n) :
    leafLo n j = leafLo n (2 * j) := by
  rw [leafLo]
  rw [if_neg (by omega)]

theorem leafHi_leaf {n j : ℕ} (h : n ≤ j) : leafHi n j = j := by
  rw [leafHi, if_pos (Or.inl h)]

theorem leafHi_step {n j : ℕ} (h1 : 1 ≤ j) (h2 : j < n) :
    leafHi n j = leafHi n (2 * j + 1) := by
  rw [leafHi]
  rw [if_neg (by omega)]

theorem leafLo_bounds {n : ℕ} :
    ∀ j, 1 ≤ j → j ≤ 2 * n - 1 → n ≤ leafLo n j ∧ leafLo n j ≤ 2 * n - 1 := by
  intro j
  induction j using leafLo.induct n with
  | case1 x hx =>
    intro h1 h2
    rw [leafLo, if_pos hx]
    omega
  | case2 x hx ih =>
    intro h1 h2
    rw [leafLo, if_neg hx]
    exact ih (by omega) (by omega)

theorem leafHi_bounds {n : ℕ} :
    ∀ j, 1 ≤ j → j ≤ 2 * n - 1 → n ≤ leafHi n j ∧ leafHi n j ≤ 2 * n - 1 := by
  intro j
  induction j using leafHi.induct n with
  | case1 x hx =>
    intro h1 h2
    rw [leafHi, if_pos hx]
    omega
  | case2 x hx ih =>
    intro h1 h2
    rw [leafHi, if_neg hx]
    exact ih (by omega) (by omega)

/-- Spatial adjacency: when `u` is not a power of two (so `u-1` and `u` sit in
one row), the rightmost leaf position under `u-1` immediately precedes the
leftmost leaf position under `u`. -/
theorem pos_adjacent {n : ℕ} (hn : 1 ≤ n) :
    ∀ m u, 2 * n - u ≤ m → 2 ≤ u → u ≤ 2 * n - 1 → ¬Pow2 u →
      posIdx n (leafHi n (u - 1)) + 1 = posIdx n (leafLo n u) := by
  have hD1 := le_Dn hn
  have hD2 := Dn_le hn
  have hD3 := lt_two_Dn hn
  have hDp := Dn_pow2 hn
  intro m
  induction m with
  | zero => intro u h0 h2 hub _; omega
  | succ m ih =>
    intro u hm h2 hub hnp
    rcases Nat.lt_or_ge u n with hlt | hge
    · -- internal: recurse at 2u
      rw [leafLo_step (by omega) hlt,
        show u - 1 = (2 * u - 1) / 2 by omega]
      rw [leafHi_step (show 1 ≤ (2 * u - 1) / 2 by omega) (by omega),
        show 2 * ((2 * u - 1) / 2) + 1 = 2 * u - 1 by omega]
      rw [show (2 * u - 1 : ℕ) = 2 * u - 1 from rfl]
      have := ih (2 * u) (by omega) (by omega) (by omega)
        (fun hc => hnp (pow2_of_two_mul (by omega) hc))
      rw [show 2 * u - 1 = (2 * u) - 1 by omega]
      exact this
    · rcases Nat.lt_or_ge n u with hgt | heq
      · -- both `u-1` and `u` are leaf cells
        rw [leafHi_leaf (by omega), leafLo_leaf (by omega)]
        unfold posIdx
        by_cases hcu : Dn n ≤ u
        · by_cases hcu1 : Dn n ≤ u - 1
          · rw [if_pos hcu, if_pos hcu1]
            omega
          · have : u = Dn n := by omega
            exact absurd (this ▸ hDp) hnp
        · rw [if_neg hcu, if_neg (by omega)]
          omega
      · -- `u = n`: the wrap boundary
        have hun : u = n := by omega
        subst hun
        have hnD : u < Dn u := by
          rcases Nat.eq_or_lt_of_le hD1 with heq | hlt'
          · exact absurd (show Pow2 u by rw [heq]; exact hDp) hnp
          · exact hlt'
        rw [leafLo_leaf (le_refl u)]
        rw [leafHi_step (by omega) (by omega),
          show 2 * (u - 1) + 1 = 2 * u - 1 by omega]
        rw [leafHi_leaf (by omega)]
        unfold posIdx
        rw [if_pos (by omega : Dn u ≤ 2 * u - 1), if_neg (by omega)]
        omega

theorem posIdx_leaf_lt {n j : ℕ} (hn : 1 ≤ n) (h1 : n ≤ j)
    (h2 : j ≤ 2 * n - 1) : posIdx n j < n := posIdx_lt hn h1 h2

/-- The subtree leaves of any node form the contiguous block of positions
between its leftmost and rightmost leaf. -/
theorem leavesUnder_eq {n : ℕ} (hn : 1 ≤ n) :
    ∀ m j, 2 * n - j ≤ m → 1 ≤ j → j ≤ 2 * n - 1 →
      leavesUnder n j = List.range' (posIdx n (leafLo n j))
        (posIdx n (leafHi n j) + 1 - posIdx n (leafLo n j)) ∧
      posIdx n (leafLo n j) ≤ posIdx n (leafHi n j) := by
  intro m
  induction m with
  | zero => intro j h0 h1 h2; omega
  | succ m ih =>
    intro j hm h1 h2
    rcases Nat.lt_or_ge j n with hlt | hge
    · -- internal node
      have hb0 : 1 ≤ 2 * j := by omega
      have hb1 : 2 * j ≤ 2 * n - 1 := by omega
      have hb2 : 2 * j + 1 ≤ 2 * n - 1 := by omega
      obtain ⟨ihl, ihl2⟩ := ih (2 * j) (by omega) hb0 hb1
      obtain ⟨ihr, ihr2⟩ := ih (2 * j + 1) (by omega) (by omega) hb2
      have hadj := pos_adjacent hn (2 * n) (2 * j + 1) (by omega) (by omega)
        hb2 (pow2_not_odd (by omega) (by omega))
      rw [show 2 * j + 1 - 1 = 2 * j by omega] at hadj
      rw [leavesUnder, if_neg (by omega), ihl, ihr]
      rw [leafLo_step (by omega) hlt, leafHi_step (by omega) hlt]
      constructor
      · have happ := List.range'_append_1 (posIdx n (leafLo n (2 * j)))
          (posIdx n (leafHi n (2 * j)) + 1 - posIdx n (leafLo n (2 * j)))
          (posIdx n (leafHi n (2 * j + 1)) + 1 - posIdx n (leafLo n (2 * j + 1)))
        rw [show posIdx n (leafLo n (2 * j)) +
            (posIdx n (leafHi n (2 * j)) + 1 - posIdx n (leafLo n (2 * j))) =
            posIdx n (leafLo n (2 * j + 1)) by omega] at happ
        rw [happ]
        congr 1
        omega
      · omega
    · -- leaf cell
      rw [leavesUnder, if_pos (Or.inl hge), if_neg (by omega)]
      rw [leafLo_leaf hge, leafHi_leaf hge]
      rw [show posIdx n j + 1 - posIdx n j = 1 by omega]
      exact ⟨rfl, le_refl _⟩

theorem posLo_le_posHi {n j : ℕ} (hn : 1 ≤ n) (h1 : 1 ≤ j)
    (h2 : j ≤ 2 * n - 1) :
    posIdx n (leafLo n j) ≤ posIdx n (leafHi n j) :=
  (leavesUnder_eq hn (2 * n) j (by omega) h1 h2).2

/-- A node just left of a row boundary (`v+1` a power of two) spans up to the
globally last leaf position `n-1`. -/
theorem posHi_rowlast {n : ℕ} (hn : 1 ≤ n) :
    ∀ m v, 2 * n - v ≤ m → 1 ≤ v → v ≤ 2 * n - 1 → Pow2 (v + 1) →
      posIdx n (leafHi n v) = n - 1 := by
  have hD1 := le_Dn hn
  have hD2 := Dn_le hn
  have hD3 := lt_two_Dn hn
  have hDp := Dn_pow2 hn
  intro m
  induction m with
  | zero => intro v h0 h1 h2 _; omega
  | succ m ih =>
    intro v hm h1 h2 hp
    rcases Nat.lt_or_ge v n with hlt | hge
    · rw [leafHi_step h1 hlt]
      exact ih (2 * v + 1) (by omega) (by omega) (by omega)
        (by rw [show 2 * v + 1 + 1 = 2 * (v + 1) by omega]
            exact pow2_double hp)
    · rw [leafHi_leaf hge]
      rcases Nat.lt_trichotomy (v + 1) (Dn n) with hc | hc | hc
      · have := pow2_two_mul_le hp hDp hc
        omega
      · unfold posIdx
        rw [if_neg (by omega)]
        omega
      · have := pow2_two_mul_le hDp hp hc
        have hvv : v = 2 * n - 1 ∧ Dn n = n := by omega
        unfold posIdx
        rw [if_pos (by omega)]
        omega

/-- A node at a row-first index (a power of two) spans down to the globally
first leaf position `0`. -/
theorem posLo_rowfirst {n : ℕ} (hn : 1 ≤ n) :
    ∀ m v, 2 * n - v ≤ m → 1 ≤ v → v ≤ 2 * n - 1 → Pow2 v →
      posIdx n (leafLo n v) = 0 := by
  have hD1 := le_Dn hn
  have hD2 := Dn_le hn
  have hD3 := lt_two_Dn hn
  have hDp := Dn_pow2 hn
  intro m
  induction m with
  | zero => intro v h0 h1 h2 _; omega
  | succ m ih =>
    intro v hm h1 h2 hp
    rcases Nat.lt_or_ge v n with hlt | hge
    · rw [leafLo_step h1 hlt]
      exact ih (2 * v) (by omega) (by omega) (by omega) (pow2_double hp)
    · rw [leafLo_leaf hge]
      have hvD : v = Dn n := pow2_unique hp hDp hge h2 hD1 hD2
      unfold posIdx
      rw [if_pos (by omega)]
      omega

theorem msb_two_mul {x : ℕ} (hx : 1 ≤ x) : msb (2 * x) = 2 * msb x := by
  rw [msb_unfold, if_neg (by omega), show 2 * x / 2 = x by omega]

/-- Same-row ordering: smaller index means an entirely earlier leaf span. -/
theorem pos_ordered {n : ℕ} (hn : 1 ≤ n) :
    ∀ k v w, w - v ≤ k → 1 ≤ v → v < w → w ≤ 2 * n - 1 → msb v = msb w →
      posIdx n (leafHi n v) < posIdx n (leafLo n w) := by
  intro k
  induction k with
  | zero => intro v w h0 h1 hvw _ _; omega
  | succ k ih =>
    intro v w hk h1 hvw hw2 hrow
    have hwp : ¬Pow2 w := by
      intro hc
      have := msb_pow2_self hc
      have := msb_le h1
      omega
    rcases Nat.lt_or_ge (v + 1) w with hlt | hge
    · have hrow' : msb (w - 1) = msb w := by
        have h := @msb_succ_eq (w - 1) (by omega)
          (by rw [show w - 1 + 1 = w by omega]; exact hwp)
        rw [show w - 1 + 1 = w by omega] at h
        exact h.symm
      have hstep := ih v (w - 1) (by omega) h1 (by omega) (by omega)
        (by rw [hrow']; exact hrow)
      have hmid := posLo_le_posHi hn (show 1 ≤ w - 1 by omega)
        (show w - 1 ≤ 2 * n - 1 by omega)
      have hadj := pos_adjacent hn (2 * n) w (by omega) (by omega) hw2 hwp
      omega
    · have hw : w = v + 1 := by omega
      subst hw
      have hadj := pos_adjacent hn (2 * n) (v + 1) (by omega) (by omega)
        hw2 hwp
      rw [show v + 1 - 1 = v by omega] at hadj
      omega

/-- Numeric order from non-disjointness on one row. -/
theorem lt_of_pos_le {n : ℕ} (hn : 1 ≤ n) {v w : ℕ} (hv1 : 1 ≤ v)
    (hv2 : v ≤ 2 * n - 1) (hw2 : w ≤ 2 * n - 1) (hw1 : 1 ≤ w)
    (hrow : msb v = msb w) (hne : v ≠ w)
    (hpos : posIdx n (leafLo n v) ≤ posIdx n (leafHi n w)) : v < w := by
  rcases Nat.lt_trichotomy v w with h | h | h
  · exact h
  · exact absurd h hne
  · have := pos_ordered hn v w v (by omega) hw1 h hv2 hrow.symm
    have := posLo_le_posHi hn hv1 hv2
    have := posLo_le_posHi hn hw1 hw2
    omega

/-- Climbing an odd left bound: the parent of `L+1` starts exactly one
position after the span of `L` ends. -/
theorem posLo_up_odd {n : ℕ} (hn : 1 ≤ n) {L : ℕ} (hodd : L % 2 = 1)
    (hL2 : L ≤ 2 * n - 1) (hnp : ¬Pow2 (L + 1))
    (hb2 : posIdx n (leafHi n L) ≤ n - 2) :
    posIdx n (leafLo n ((L + 1) / 2)) = posIdx n (leafHi n L) + 1 := by
  have hL3 : 3 ≤ L := by
    by_contra hc
    have hL1 : L = 1 := by omega
    exact hnp (by rw [hL1]; exact ⟨1, by norm_num⟩)
  have hn2 : 2 ≤ n := by omega
  have hD1 := le_Dn hn
  have hD2 := Dn_le hn
  have hD3 := lt_two_Dn hn
  by_cases htop : L = 2 * n - 1
  · subst htop
    have hhi : leafHi n (2 * n - 1) = 2 * n - 1 := leafHi_leaf (by omega)
    have hbval : posIdx n (leafHi n (2 * n - 1)) = 2 * n - 1 - Dn n := by
      rw [hhi]
      unfold posIdx
      rw [if_pos (by omega)]
    have hnD : n < Dn n := by
      rcases Nat.eq_or_lt_of_le hD1 with heq | hlt
      · rw [hbval] at hb2
        omega
      · exact hlt
    rw [hbval, show (2 * n - 1 + 1) / 2 = n by omega, leafLo_leaf (le_refl n)]
    unfold posIdx
    rw [if_neg (by omega)]
    omega
  · have h1 : (L + 1) / 2 < n := by omega
    have h2 : 1 ≤ (L + 1) / 2 := by omega
    rw [leafLo_step h2 h1, show 2 * ((L + 1) / 2) = L + 1 by omega]
    have hadj := pos_adjacent hn (2 * n) (L + 1) (by omega) (by omega)
      (by omega) hnp
    rw [show L + 1 - 1 = L by omega] at hadj
    omega

/-- Climbing an even left bound keeps the leftmost leaf. -/
theorem leafLo_up_even {n : ℕ} {L : ℕ} (heven : L % 2 = 0) (hL1 : 2 ≤ L)
    (hL2 : L ≤ 2 * n - 1) : leafLo n (L / 2) = leafLo n L := by
  rw [leafLo_step (by omega) (by omega), show 2 * (L / 2) = L by omega]

/-- Climbing an odd right bound keeps the rightmost leaf. -/
theorem leafHi_up_odd {n : ℕ} {R : ℕ} (hodd : R % 2 = 1) (hR3 : 3 ≤ R)
    (hR2 : R ≤ 2 * n - 1) : leafHi n (R / 2) = leafHi n R := by
  rw [leafHi_step (by omega) (by omega), show 2 * (R / 2) + 1 = R by omega]

/-- Climbing an even right bound after visiting it: the parent of `R-1` ends
exactly one position before the span of `R` starts. -/
theorem posHi_up_even {n : ℕ} (hn : 1 ≤ n) {R : ℕ} (heven : R % 2 = 0)
    (hR4 : 4 ≤ R) (hR2 : R ≤ 2 * n - 1) (hnp : ¬Pow2 R) :
    posIdx n (leafHi n ((R - 1) / 2)) + 1 = posIdx n (leafLo n R) := by
  rw [leafHi_step (show 1 ≤ (R - 1) / 2 by omega) (by omega),
    show 2 * ((R - 1) / 2) + 1 = R - 1 by omega]
  exact pos_adjacent hn (2 * n) R (by omega) (by omega) hR2 hnp

theorem range'_glue (s m t k : ℕ) (h : t = s + m) :
    List.range' s m ++ List.range' t k = List.range' s (m + k) := by
  subst h
  rw [List.range'_append_1, Nat.add_comm k m]

theorem msb_half_succ {L : ℕ} (hL1 : 1 ≤ L) (hnp : ¬Pow2 (L + 1)) :
    msb ((L + 1) / 2) = msb L / 2 := by
  rw [msb_div2 (by omega), msb_succ_eq hL1 hnp]

theorem msb_half_pred {R : ℕ} (hR2 : 2 ≤ R) (hnp : ¬Pow2 R) :
    msb ((R - 1) / 2) = msb R / 2 := by
  have hR3 : 3 ≤ R := by
    rcases Nat.lt_or_ge R 3 with h | h
    · exact absurd (show Pow2 R by rw [show R = 2 by omega]; exact ⟨1, by norm_num⟩) hnp
    · exact h
  have h := @msb_succ_eq (R - 1) (by omega)
    (by rw [show R - 1 + 1 = R by omega]; exact hnp)
  rw [show R - 1 + 1 = R by omega] at h
  rw [msb_div2 (by omega), h]

theorem msb_even {v : ℕ} (hv : 1 ≤ v) (h2 : 2 ≤ msb v) : msb v % 2 = 0 := by
  obtain ⟨heq, _⟩ := pow2_half (msb_pow2 hv) h2
  omega

/-- Two same-row nodes with the same leftmost leaf position coincide. -/
theorem posLo_inj_row {n : ℕ} (hn : 1 ≤ n) {v w : ℕ} (hv1 : 1 ≤ v)
    (hv2 : v ≤ 2 * n - 1) (hw1 : 1 ≤ w) (hw2 : w ≤ 2 * n - 1)
    (hrow : msb v = msb w)
    (hpos : posIdx n (leafLo n v) = posIdx n (leafLo n w)) : v = w := by
  rcases Nat.lt_trichotomy v w with h | h | h
  · have h1 := pos_ordered hn w v w (by omega) hv1 h hw2 hrow
    have h2 := posLo_le_posHi hn hv1 hv2
    omega
  · exact h
  · have h1 := pos_ordered hn v w v (by omega) hw1 h hv2 hrow.symm
    have h2 := posLo_le_posHi hn hw1 hw2
    omega

/-- Partition property of `act_on_min_covering_ancestors`: from any loop state
satisfying the loop invariant (the bounds met, one is the double of the other,
or their leaf spans are disjoint with the left bound in the same row as the
right bound or one row deeper), the visited nodes' subtree leaves form, as a
multiset, exactly the contiguous block of positions from the left bound's
first leaf to the right bound's last leaf. -/
theorem mca_partition {n : ℕ} (hn : 1 ≤ n) :
    ∀ fuel L R, L + R ≤ fuel → 1 ≤ L → L ≤ 2 * n - 1 → 1 ≤ R → R ≤ 2 * n - 1 →
      (L = R ∨ L = 2 * R ∨
        (posIdx n (leafHi n L) < posIdx n (leafLo n R) ∧
          (msb L = msb R ∨ msb L = 2 * msb R))) →
      (∀ v ∈ mcaList fuel L R, 1 ≤ v ∧ v ≤ 2 * n - 1) ∧
      ((mcaList fuel L R).flatMap (leavesUnder n)).Perm
        (List.range' (posIdx n (leafLo n L))
          (posIdx n (leafHi n R) + 1 - posIdx n (leafLo n L))) := by
  intro fuel
  induction fuel with
  | zero => intro L R hfuel hL1 _ _ _ _; omega
  | succ f ih =>
    intro L R hfuel hL1 hL2 hR1 hR2 hinv
    have hLoB := leafLo_bounds L hL1 hL2
    have hHiB := leafHi_bounds L hL1 hL2
    have hLoBR := leafLo_bounds R hR1 hR2
    have hHiBR := leafHi_bounds R hR1 hR2
    have han : posIdx n (leafLo n L) < n := posIdx_lt hn hLoB.1 hLoB.2
    have hbn : posIdx n (leafHi n L) < n := posIdx_lt hn hHiB.1 hHiB.2
    have hcn : posIdx n (leafLo n R) < n := posIdx_lt hn hLoBR.1 hLoBR.2
    have hdn : posIdx n (leafHi n R) < n := posIdx_lt hn hHiBR.1 hHiBR.2
    have hab : posIdx n (leafLo n L) ≤ posIdx n (leafHi n L) :=
      posLo_le_posHi hn hL1 hL2
    have hcd : posIdx n (leafLo n R) ≤ posIdx n (leafHi n R) :=
      posLo_le_posHi hn hR1 hR2
    obtain ⟨hluL, _⟩ := leavesUnder_eq hn (2 * n) L (by omega) hL1 hL2
    obtain ⟨hluR, _⟩ := leavesUnder_eq hn (2 * n) R (by omega) hR1 hR2
    rcases hinv with hmeet | hspine | ⟨hbc, hrows⟩
    · -- meet: both bounds coincide, a single node covers the whole span
      subst hmeet
      unfold mcaList
      rw [if_pos rfl]
      refine ⟨?_, ?_⟩
      · intro v hv
        have : v = L := by simpa using hv
        omega
      · simp only [List.flatMap_cons, List.flatMap_nil, List.append_nil]
        rw [hluL]
    · -- spine: the left bound is the right bound's left child
      subst hspine
      have hRn : R < n := by omega
      unfold mcaList
      rw [if_neg (show ¬(2 * R = R) by omega)]
      rw [if_neg (show ¬(2 * R % 2 = 1) by omega)]
      rw [if_pos (show 2 * R / 2 = R by omega)]
      refine ⟨?_, ?_⟩
      · intro v hv
        have : v = 2 * R / 2 := by simpa using hv
        omega
      · simp only [List.flatMap_cons, List.flatMap_nil, List.append_nil]
        rw [show 2 * R / 2 = R by omega]
        rw [← leafLo_step hR1 hRn]
        rw [hluR]
    · -- disjoint spans: a ≤ b < c ≤ d in position order
      have hRp : ¬Pow2 R := by
        intro hp
        have := posLo_rowfirst hn (2 * n) R (by omega) hR1 hR2 hp
        omega
      have hLp1 : ¬Pow2 (L + 1) := by
        intro hp
        have := posHi_rowlast hn (2 * n) L (by omega) hL1 hL2 hp
        omega
      have hLneR : L ≠ R := by
        intro h
        rw [h] at hbc
        omega
      have hLn2R : L ≠ 2 * R := by
        intro h
        have hRn : R < n := by omega
        have heq : posIdx n (leafLo n L) = posIdx n (leafLo n R) := by
          rw [h, ← leafLo_step hR1 hRn]
        omega
      unfold mcaList
      rw [if_neg hLneR]
      by_cases hLodd : L % 2 = 1
      · rw [if_pos hLodd]
        have hup : posIdx n (leafLo n ((L + 1) / 2)) =
            posIdx n (leafHi n L) + 1 :=
          posLo_up_odd hn hLodd hL2 hLp1 (by omega)
        have hmL : msb ((L + 1) / 2) = msb L / 2 := msb_half_succ hL1 hLp1
        by_cases hO1 : L + 1 = R
        · rw [if_pos hO1]
          refine ⟨?_, ?_⟩
          · intro v hv
            have : v = L ∨ v = R := by simpa using hv
            rcases this with rfl | rfl <;> omega
          · have hadj : posIdx n (leafHi n (R - 1)) + 1 =
                posIdx n (leafLo n R) :=
              pos_adjacent hn (2 * n) R (by omega) (by omega) hR2 hRp
            rw [show R - 1 = L by omega] at hadj
            simp only [List.flatMap_cons, List.flatMap_nil, List.append_nil]
            rw [hluL, hluR]
            rw [range'_glue (posIdx n (leafLo n L))
              (posIdx n (leafHi n L) + 1 - posIdx n (leafLo n L))
              (posIdx n (leafLo n R))
              (posIdx n (leafHi n R) + 1 - posIdx n (leafLo n R)) (by omega)]
            rw [show (posIdx n (leafHi n L) + 1 - posIdx n (leafLo n L)) +
                (posIdx n (leafHi n R) + 1 - posIdx n (leafLo n R)) =
                posIdx n (leafHi n R) + 1 - posIdx n (leafLo n L) by omega]
        · rw [if_neg hO1]
          by_cases hO2 : (L + 1) / 2 = R
          · rw [if_pos hO2]
            refine ⟨?_, ?_⟩
            · intro v hv
              have : v = L ∨ v = (L + 1) / 2 := by simpa using hv
              rcases this with rfl | rfl <;> omega
            · have hc : posIdx n (leafLo n R) = posIdx n (leafHi n L) + 1 := by
                rw [← hO2]
                exact hup
              simp only [List.flatMap_cons, List.flatMap_nil, List.append_nil]
              rw [hO2, hluL, hluR]
              rw [range'_glue (posIdx n (leafLo n L))
                (posIdx n (leafHi n L) + 1 - posIdx n (leafLo n L))
                (posIdx n (leafLo n R))
                (posIdx n (leafHi n R) + 1 - posIdx n (leafLo n R)) (by omega)]
              rw [show (posIdx n (leafHi n L) + 1 - posIdx n (leafLo n L)) +
                  (posIdx n (leafHi n R) + 1 - posIdx n (leafLo n R)) =
                  posIdx n (leafHi n R) + 1 - posIdx n (leafLo n L) by omega]
          · rw [if_neg hO2]
            by_cases hRev : R % 2 = 0
            · rw [if_pos hRev]
              have hadjR : posIdx n (leafHi n (R - 1)) + 1 =
                  posIdx n (leafLo n R) :=
                pos_adjacent hn (2 * n) R (by omega) (by omega) hR2 hRp
              by_cases hO3 : (L + 1) / 2 = R - 1
              · rw [if_pos hO3]
                have hPhi : posIdx n (leafHi n ((L + 1) / 2)) + 1 =
                    posIdx n (leafLo n R) := by
                  rw [hO3]
                  exact hadjR
                obtain ⟨hluP, _⟩ := leavesUnder_eq hn (2 * n) ((L + 1) / 2)
                  (by omega) (by omega) (by omega)
                refine ⟨?_, ?_⟩
                · intro v hv
                  have : v = L ∨ v = R ∨ v = (L + 1) / 2 := by simpa using hv
                  rcases this with rfl | rfl | rfl <;> omega
                · simp only [List.flatMap_cons, List.flatMap_nil,
                    List.append_nil]
                  rw [hluL, hluR, hluP, hup, hPhi]
                  refine List.Perm.trans
                    (List.Perm.append_left _ List.perm_append_comm) ?_
                  rw [← List.append_assoc]
                  rw [range'_glue (posIdx n (leafLo n L))
                    (posIdx n (leafHi n L) + 1 - posIdx n (leafLo n L))
                    (posIdx n (leafHi n L) + 1)
                    (posIdx n (leafLo n R) - (posIdx n (leafHi n L) + 1))
                    (by omega)]
                  rw [range'_glue (posIdx n (leafLo n L))
                    ((posIdx n (leafHi n L) + 1 - posIdx n (leafLo n L)) +
                      (posIdx n (leafLo n R) - (posIdx n (leafHi n L) + 1)))
                    (posIdx n (leafLo n R))
                    (posIdx n (leafHi n R) + 1 - posIdx n (leafLo n R))
                    (by omega)]
                  rw [show ((posIdx n (leafHi n L) + 1 -
                      posIdx n (leafLo n L)) +
                      (posIdx n (leafLo n R) -
                        (posIdx n (leafHi n L) + 1))) +
                      (posIdx n (leafHi n R) + 1 - posIdx n (leafLo n R)) =
                      posIdx n (leafHi n R) + 1 - posIdx n (leafLo n L)
                    by omega]
              · rw [if_neg hO3]
                have hR4 : 4 ≤ R := by
                  rcases Nat.lt_or_ge R 4 with h | h
                  · exact absurd (show Pow2 R by
                      rw [show R = 2 by omega]; exact ⟨1, by norm_num⟩) hRp
                  · exact h
                have hPe : posIdx n (leafHi n ((R - 1) / 2)) + 1 =
                    posIdx n (leafLo n R) :=
                  posHi_up_even hn hRev hR4 hR2 hRp
                have hmR : msb ((R - 1) / 2) = msb R / 2 :=
                  msb_half_pred (by omega) hRp
                have hinv2 : (L + 1) / 2 = (R - 1) / 2 ∨
                    (L + 1) / 2 = 2 * ((R - 1) / 2) ∨
                    (posIdx n (leafHi n ((L + 1) / 2)) <
                        posIdx n (leafLo n ((R - 1) / 2)) ∧
                      (msb ((L + 1) / 2) = msb ((R - 1) / 2) ∨
                        msb ((L + 1) / 2) = 2 * msb ((R - 1) / 2))) := by
                  rcases hrows with hre | hro
                  · have hrow2 : msb ((L + 1) / 2) = msb ((R - 1) / 2) := by
                      rw [hmL, hmR, hre]
                    have hLR : L < R :=
                      lt_of_pos_le hn hL1 hL2 hR2 hR1 hre hLneR (by omega)
                    have hle : (L + 1) / 2 ≤ (R - 1) / 2 := by omega
                    rcases Nat.eq_or_lt_of_le hle with heq | hlt
                    · exact Or.inl heq
                    · exact Or.inr (Or.inr ⟨pos_ordered hn ((R - 1) / 2)
                        ((L + 1) / 2) ((R - 1) / 2) (by omega) (by omega)
                        hlt (by omega) hrow2, Or.inl hrow2⟩)
                  · have hmR2 : 2 ≤ msb R := by
                      have h1 := msb_one_le hR1
                      have h2 := lt_two_msb hR1
                      omega
                    have hmRe : msb R % 2 = 0 := msb_even hR1 hmR2
                    have hrow2 : msb ((L + 1) / 2) = 2 * msb ((R - 1) / 2) := by
                      rw [hmL, hmR, hro]
                      omega
                    by_cases hsp : (L + 1) / 2 = 2 * ((R - 1) / 2)
                    · exact Or.inr (Or.inl hsp)
                    · refine Or.inr (Or.inr ⟨?_, Or.inr hrow2⟩)
                      have hmL2R : msb ((L + 1) / 2) = msb R := by
                        rw [hmL, hro]
                        omega
                      have hstrict : posIdx n (leafHi n L) + 2 ≤
                          posIdx n (leafLo n R) := by
                        rcases Nat.eq_or_lt_of_le
                          (show posIdx n (leafHi n L) + 1 ≤
                            posIdx n (leafLo n R) by omega) with heq | hlt
                        · exact absurd (posLo_inj_row hn
                            (show 1 ≤ (L + 1) / 2 by omega)
                            (show (L + 1) / 2 ≤ 2 * n - 1 by omega)
                            hR1 hR2 hmL2R (by rw [hup]; omega)) hO2
                        · omega
                      have hmR1 : msb (R - 1) = msb R := by
                        have h := @msb_succ_eq (R - 1) (by omega)
                          (by rw [show R - 1 + 1 = R by omega]; exact hRp)
                        rw [show R - 1 + 1 = R by omega] at h
                        exact h.symm
                      have hpos : posIdx n (leafLo n ((L + 1) / 2)) ≤
                          posIdx n (leafHi n (R - 1)) := by omega
                      have hlt1 : (L + 1) / 2 < R - 1 :=
                        lt_of_pos_le hn (by omega) (by omega) (by omega)
                          (by omega) (by rw [hmL2R, hmR1]) hO3 hpos
                      have hlt2 : (L + 1) / 2 < 2 * ((R - 1) / 2) := by omega
                      have hrow3 : msb ((L + 1) / 2) =
                          msb (2 * ((R - 1) / 2)) := by
                        rw [msb_two_mul (show 1 ≤ (R - 1) / 2 by omega),
                          hmL2R, hmR]
                        omega
                      have hord := pos_ordered hn (2 * ((R - 1) / 2))
                        ((L + 1) / 2) (2 * ((R - 1) / 2)) (by omega)
                        (by omega) hlt2 (by omega) hrow3
                      rw [← leafLo_step (show 1 ≤ (R - 1) / 2 by omega)
                        (show (R - 1) / 2 < n by omega)] at hord
                      exact hord
                obtain ⟨ihb, ihp⟩ := ih ((L + 1) / 2) ((R - 1) / 2) (by omega)
                  (by omega) (by omega) (by omega) (by omega) hinv2
                rw [hup, hPe] at ihp
                refine ⟨?_, ?_⟩
                · intro v hv
                  rw [List.mem_append] at hv
                  rcases hv with hv | hv
                  · have : v = L ∨ v = R := by simpa using hv
                    rcases this with rfl | rfl <;> omega
                  · exact ihb v hv
                · rw [List.flatMap_append]
                  simp only [List.flatMap_cons, List.flatMap_nil,
                    List.append_nil]
                  rw [hluL, hluR]
                  refine List.Perm.trans (List.Perm.append_left _ ihp) ?_
                  rw [List.append_assoc]
                  refine List.Perm.trans
                    (List.Perm.append_left _ List.perm_append_comm) ?_
                  rw [← List.append_assoc]
                  rw [range'_glue (posIdx n (leafLo n L))
                    (posIdx n (leafHi n L) + 1 - posIdx n (leafLo n L))
                    (posIdx n (leafHi n L) + 1)
                    (posIdx n (leafLo n R) - (posIdx n (leafHi n L) + 1))
                    (by omega)]
                  rw [range'_glue (posIdx n (leafLo n L))
                    ((posIdx n (leafHi n L) + 1 - posIdx n (leafLo n L)) +
                      (posIdx n (leafLo n R) - (posIdx n (leafHi n L) + 1)))
                    (posIdx n (leafLo n R))
                    (posIdx n (leafHi n R) + 1 - posIdx n (leafLo n R))
                    (by omega)]
                  rw [show ((posIdx n (leafHi n L) + 1 -
                      posIdx n (leafLo n L)) +
                      (posIdx n (leafLo n R) -
                        (posIdx n (leafHi n L) + 1))) +
                      (posIdx n (leafHi n R) + 1 - posIdx n (leafLo n R)) =
                      posIdx n (leafHi n R) + 1 - posIdx n (leafLo n L)
                    by omega]
            · rw [if_neg hRev]
              have hR3 : 3 ≤ R := by
                rcases Nat.lt_or_ge R 3 with h | h
                · exact absurd (show Pow2 R by
                    rw [show R = 1 by omega]; exact ⟨0, by norm_num⟩) hRp
                · exact h
              have hRhi : leafHi n (R / 2) = leafHi n R :=
                leafHi_up_odd (by omega) hR3 hR2
              have hmR : msb (R / 2) = msb R / 2 := msb_div2 (by omega)
              have hinv2 : (L + 1) / 2 = R / 2 ∨
                  (L + 1) / 2 = 2 * (R / 2) ∨
                  (posIdx n (leafHi n ((L + 1) / 2)) <
                      posIdx n (leafLo n (R / 2)) ∧
                    (msb ((L + 1) / 2) = msb (R / 2) ∨
                      msb ((L + 1) / 2) = 2 * msb (R / 2))) := by
                rcases hrows with hre | hro
                · have hrow2 : msb ((L + 1) / 2) = msb (R / 2) := by
                    rw [hmL, hmR, hre]
                  have hLR : L < R :=
                    lt_of_pos_le hn hL1 hL2 hR2 hR1 hre hLneR (by omega)
                  have hle : (L + 1) / 2 ≤ R / 2 := by omega
                  rcases Nat.eq_or_lt_of_le hle with heq | hlt
                  · exact Or.inl heq
                  · exact Or.inr (Or.inr ⟨pos_ordered hn (R / 2)
                      ((L + 1) / 2) (R / 2) (by omega) (by omega) hlt
                      (by omega) hrow2, Or.inl hrow2⟩)
                · have hmR2 : 2 ≤ msb R := by
                    have h1 := msb_one_le hR1
                    have h2 := lt_two_msb hR1
                    omega
                  have hmRe : msb R % 2 = 0 := msb_even hR1 hmR2
                  have hrow2 : msb ((L + 1) / 2) = 2 * msb (R / 2) := by
                    rw [hmL, hmR, hro]
                    omega
                  by_cases hsp : (L + 1) / 2 = 2 * (R / 2)
                  · exact Or.inr (Or.inl hsp)
                  · refine Or.inr (Or.inr ⟨?_, Or.inr hrow2⟩)
                    have hmL2R : msb ((L + 1) / 2) = msb R := by
                      rw [hmL, hro]
                      omega
                    have hlt1 : (L + 1) / 2 < R :=
                      lt_of_pos_le hn (by omega) (by omega) hR2 hR1 hmL2R
                        hO2 (by omega)
                    have hlt2 : (L + 1) / 2 < 2 * (R / 2) := by omega
                    have hrow3 : msb ((L + 1) / 2) = msb (2 * (R / 2)) := by
                      rw [msb_two_mul (show 1 ≤ R / 2 by omega), hmL2R, hmR]
                      omega
                    have hord := pos_ordered hn (2 * (R / 2)) ((L + 1) / 2)
                      (2 * (R / 2)) (by omega) (by omega) hlt2 (by omega)
                      hrow3
                    rw [← leafLo_step (show 1 ≤ R / 2 by omega)
                      (show R / 2 < n by omega)] at hord
                    exact hord
              obtain ⟨ihb, ihp⟩ := ih ((L + 1) / 2) (R / 2) (by omega)
                (by omega) (by omega) (by omega) (by omega) hinv2
              rw [hup, hRhi] at ihp
              refine ⟨?_, ?_⟩
              · intro v hv
                rw [List.mem_append] at hv
                rcases hv with hv | hv
                · have : v = L := by simpa using hv
                  omega
                · exact ihb v hv
              · rw [List.flatMap_append]
                simp only [List.flatMap_cons, List.flatMap_nil,
                  List.append_nil]
                rw [hluL]
                refine List.Perm.trans (List.Perm.append_left _ ihp) ?_
                rw [range'_glue (posIdx n (leafLo n L))
                  (posIdx n (leafHi n L) + 1 - posIdx n (leafLo n L))
                  (posIdx n (leafHi n L) + 1)
                  (posIdx n (leafHi n R) + 1 - (posIdx n (leafHi n L) + 1))
                  (by omega)]
                rw [show (posIdx n (leafHi n L) + 1 -
                    posIdx n (leafLo n L)) +
                    (posIdx n (leafHi n R) + 1 -
                      (posIdx n (leafHi n L) + 1)) =
                    posIdx n (leafHi n R) + 1 - posIdx n (leafLo n L)
                  by omega]
      · rw [if_neg hLodd]
        have hE1 : ¬(L / 2 = R) := by
          intro h
          exact hLn2R (by omega)
        rw [if_neg hE1]
        have hLe2 : 2 ≤ L := by omega
        have hLoeq : leafLo n (L / 2) = leafLo n L :=
          leafLo_up_even (by omega) hLe2 hL2
        have hmLh : msb (L / 2) = msb L / 2 := msb_div2 hLe2
        by_cases hRev : R % 2 = 0
        · rw [if_pos hRev]
          have hadjR : posIdx n (leafHi n (R - 1)) + 1 =
              posIdx n (leafLo n R) :=
            pos_adjacent hn (2 * n) R (by omega) (by omega) hR2 hRp
          by_cases hE2 : L / 2 = R - 1
          · rw [if_pos hE2]
            obtain ⟨hluP, _⟩ := leavesUnder_eq hn (2 * n) (L / 2)
              (by omega) (by omega) (by omega)
            have hPhi : posIdx n (leafHi n (L / 2)) + 1 =
                posIdx n (leafLo n R) := by
              rw [hE2]
              exact hadjR
            refine ⟨?_, ?_⟩
            · intro v hv
              have : v = R ∨ v = L / 2 := by simpa using hv
              rcases this with rfl | rfl <;> omega
            · simp only [List.flatMap_cons, List.flatMap_nil, List.append_nil]
              rw [hluR, hluP, hLoeq, hPhi]
              refine List.Perm.trans List.perm_append_comm ?_
              rw [range'_glue (posIdx n (leafLo n L))
                (posIdx n (leafLo n R) - posIdx n (leafLo n L))
                (posIdx n (leafLo n R))
                (posIdx n (leafHi n R) + 1 - posIdx n (leafLo n R))
                (by omega)]
              rw [show (posIdx n (leafLo n R) - posIdx n (leafLo n L)) +
                  (posIdx n (leafHi n R) + 1 - posIdx n (leafLo n R)) =
                  posIdx n (leafHi n R) + 1 - posIdx n (leafLo n L)
                by omega]
          · rw [if_neg hE2]
            have hR4 : 4 ≤ R := by
              rcases Nat.lt_or_ge R 4 with h | h
              · exact absurd (show Pow2 R by
                  rw [show R = 2 by omega]; exact ⟨1, by norm_num⟩) hRp
              · exact h
            have hPe : posIdx n (leafHi n ((R - 1) / 2)) + 1 =
                posIdx n (leafLo n R) :=
              posHi_up_even hn hRev hR4 hR2 hRp
            have hmR : msb ((R - 1) / 2) = msb R / 2 :=
              msb_half_pred (by omega) hRp
            have hinv2 : L / 2 = (R - 1) / 2 ∨
                L / 2 = 2 * ((R - 1) / 2) ∨
                (posIdx n (leafHi n (L / 2)) <
                    posIdx n (leafLo n ((R - 1) / 2)) ∧
                  (msb (L / 2) = msb ((R - 1) / 2) ∨
                    msb (L / 2) = 2 * msb ((R - 1) / 2))) := by
              rcases hrows with hre | hro
              · have hrow2 : msb (L / 2) = msb ((R - 1) / 2) := by
                  rw [hmLh, hmR, hre]
                have hLR : L < R :=
                  lt_of_pos_le hn hL1 hL2 hR2 hR1 hre hLneR (by omega)
                have hle : L / 2 ≤ (R - 1) / 2 := by omega
                rcases Nat.eq_or_lt_of_le hle with heq | hlt
                · exact Or.inl heq
                · exact Or.inr (Or.inr ⟨pos_ordered hn ((R - 1) / 2) (L / 2)
                    ((R - 1) / 2) (by omega) (by omega) hlt (by omega)
                    hrow2, Or.inl hrow2⟩)
              · have hmR2 : 2 ≤ msb R := by
                  have h1 := msb_one_le hR1
                  have h2 := lt_two_msb hR1
                  omega
                have hmRe : msb R % 2 = 0 := msb_even hR1 hmR2
                have hrow2 : msb (L / 2) = 2 * msb ((R - 1) / 2) := by
                  rw [hmLh, hmR, hro]
                  omega
                by_cases hsp : L / 2 = 2 * ((R - 1) / 2)
                · exact Or.inr (Or.inl hsp)
                · refine Or.inr (Or.inr ⟨?_, Or.inr hrow2⟩)
                  have hmLR : msb (L / 2) = msb R := by
                    rw [hmLh, hro]
                    omega
                  have hmR1 : msb (R - 1) = msb R := by
                    have h := @msb_succ_eq (R - 1) (by omega)
                      (by rw [show R - 1 + 1 = R by omega]; exact hRp)
                    rw [show R - 1 + 1 = R by omega] at h
                    exact h.symm
                  have hpos : posIdx n (leafLo n (L / 2)) ≤
                      posIdx n (leafHi n (R - 1)) := by
                    rw [hLoeq]
                    omega
                  have hlt1 : L / 2 < R - 1 :=
                    lt_of_pos_le hn (by omega) (by omega) (by omega)
                      (by omega) (by rw [hmLR, hmR1]) hE2 hpos
                  have hlt2 : L / 2 < 2 * ((R - 1) / 2) := by omega
                  have hrow3 : msb (L / 2) = msb (2 * ((R - 1) / 2)) := by
                    rw [msb_two_mul (show 1 ≤ (R - 1) / 2 by omega), hmLR,
                      hmR]
                    omega
                  have hord := pos_ordered hn (2 * ((R - 1) / 2)) (L / 2)
                    (2 * ((R - 1) / 2)) (by omega) (by omega) hlt2
                    (by omega) hrow3
                  rw [← leafLo_step (show 1 ≤ (R - 1) / 2 by omega)
                    (show (R - 1) / 2 < n by omega)] at hord
                  exact hord
            obtain ⟨ihb, ihp⟩ := ih (L / 2) ((R - 1) / 2) (by omega)
              (by omega) (by omega) (by omega) (by omega) hinv2
            rw [hLoeq, hPe] at ihp
            refine ⟨?_, ?_⟩
            · intro v hv
              rw [List.mem_append] at hv
              rcases hv with hv | hv
              · have : v = R := by simpa using hv
                omega
              · exact ihb v hv
            · rw [List.flatMap_append]
              simp only [List.flatMap_cons, List.flatMap_nil, List.append_nil]
              rw [hluR]
              refine List.Perm.trans (List.Perm.append_left _ ihp) ?_
              refine List.Perm.trans List.perm_append_comm ?_
              rw [range'_glue (posIdx n (leafLo n L))
                (posIdx n (leafLo n R) - posIdx n (leafLo n L))
                (posIdx n (leafLo n R))
                (posIdx n (leafHi n R) + 1 - posIdx n (leafLo n R))
                (by omega)]
              rw [show (posIdx n (leafLo n R) - posIdx n (leafLo n L)) +
                  (posIdx n (leafHi n R) + 1 - posIdx n (leafLo n R)) =
                  posIdx n (leafHi n R) + 1 - posIdx n (leafLo n L)
                by omega]
        · rw [if_neg hRev]
          have hR3 : 3 ≤ R := by
            rcases Nat.lt_or_ge R 3 with h | h
            · exact absurd (show Pow2 R by
                rw [show R = 1 by omega]; exact ⟨0, by norm_num⟩) hRp
            · exact h
          have hRhi : leafHi n (R / 2) = leafHi n R :=
            leafHi_up_odd (by omega) hR3 hR2
          have hmR : msb (R / 2) = msb R / 2 := msb_div2 (by omega)
          have hinv2 : L / 2 = R / 2 ∨ L / 2 = 2 * (R / 2) ∨
              (posIdx n (leafHi n (L / 2)) < posIdx n (leafLo n (R / 2)) ∧
                (msb (L / 2) = msb (R / 2) ∨
                  msb (L / 2) = 2 * msb (R / 2))) := by
            rcases hrows with hre | hro
            · have hrow2 : msb (L / 2) = msb (R / 2) := by
                rw [hmLh, hmR, hre]
              have hLR : L < R :=
                lt_of_pos_le hn hL1 hL2 hR2 hR1 hre hLneR (by omega)
              have hle : L / 2 ≤ R / 2 := by omega
              rcases Nat.eq_or_lt_of_le hle with heq | hlt
              · exact Or.inl heq
              · exact Or.inr (Or.inr ⟨pos_ordered hn (R / 2) (L / 2) (R / 2)
                  (by omega) (by omega) hlt (by omega) hrow2,
                  Or.inl hrow2⟩)
            · have hmR2 : 2 ≤ msb R := by
                have h1 := msb_one_le hR1
                have h2 := lt_two_msb hR1
                omega
              have hmRe : msb R % 2 = 0 := msb_even hR1 hmR2
              have hrow2 : msb (L / 2) = 2 * msb (R / 2) := by
                rw [hmLh, hmR, hro]
                omega
              by_cases hsp : L / 2 = 2 * (R / 2)
              · exact Or.inr (Or.inl hsp)
              · refine Or.inr (Or.inr ⟨?_, Or.inr hrow2⟩)
                have hmLR : msb (L / 2) = msb R := by
                  rw [hmLh, hro]
                  omega
                have hlt1 : L / 2 < R :=
                  lt_of_pos_le hn (by omega) (by omega) hR2 hR1 hmLR hE1
                    (by rw [hLoeq]; omega)
                have hlt2 : L / 2 < 2 * (R / 2) := by omega
                have hrow3 : msb (L / 2) = msb (2 * (R / 2)) := by
                  rw [msb_two_mul (show 1 ≤ R / 2 by omega), hmLR, hmR]
                  omega
                have hord := pos_ordered hn (2 * (R / 2)) (L / 2)
                  (2 * (R / 2)) (by omega) (by omega) hlt2 (by omega) hrow3
                rw [← leafLo_step (show 1 ≤ R / 2 by omega)
                  (show R / 2 < n by omega)] at hord
                exact hord
          obtain ⟨ihb, ihp⟩ := ih (L / 2) (R / 2) (by omega) (by omega)
            (by omega) (by omega) (by omega) hinv2
          rw [hLoeq, hRhi] at ihp
          exact ⟨ihb, ihp⟩

/-- The heap row of a leaf cell: deep-row leaves sit in row `D`, wrapped
leaves in row `D/2`. -/
theorem msb_leafIdx {n k : ℕ} (hn : 1 ≤ n) (hk : k < n) :
    msb (leafIdx n k) = if k + Dn n < 2 * n then Dn n else Dn n / 2 := by
  have hD1 := le_Dn hn
  have hD2 := Dn_le hn
  have hD3 := lt_two_Dn hn
  have hDp := Dn_pow2 hn
  rw [leafIdx_if]
  by_cases hb : k + Dn n < 2 * n
  · rw [if_pos hb, if_pos hb]
    exact msb_eq_of_pow2 hDp (by omega) (by omega)
  · rw [if_neg hb, if_neg hb]
    have h2D : 2 ≤ Dn n := by omega
    obtain ⟨hhalf, hp2⟩ := pow2_half hDp h2D
    exact msb_eq_of_pow2 hp2 (by omega) (by omega)

/-- The state entering the `act_on_min_covering_ancestors` loop from two
leaves of a nonempty range satisfies the loop invariant of the partition
theorem. -/
theorem mca_init {n : ℕ} (hn : 1 ≤ n) {i1 i2 : ℕ} (h12 : i1 < i2)
    (h2n : i2 ≤ n) :
    leafIdx n i1 = leafIdx n (i2 - 1) ∨
    leafIdx n i1 = 2 * leafIdx n (i2 - 1) ∨
    (posIdx n (leafHi n (leafIdx n i1)) <
        posIdx n (leafLo n (leafIdx n (i2 - 1))) ∧
      (msb (leafIdx n i1) = msb (leafIdx n (i2 - 1)) ∨
        msb (leafIdx n i1) = 2 * msb (leafIdx n (i2 - 1)))) := by
  rcases Nat.eq_or_lt_of_le (show i1 ≤ i2 - 1 by omega) with heq | hlt
  · exact Or.inl (by rw [heq])
  · have hi1n : i1 < n := by omega
    have hi2n : i2 - 1 < n := by omega
    have hL1 := leafIdx_lb hn hi1n
    have hR1 := leafIdx_lb hn hi2n
    refine Or.inr (Or.inr ⟨?_, ?_⟩)
    · rw [leafHi_leaf hL1, leafLo_leaf hR1,
        posIdx_leafIdx hn hi1n, posIdx_leafIdx hn hi2n]
      exact hlt
    · have hD1 := le_Dn hn
      have hD2 := Dn_le hn
      rw [msb_leafIdx hn hi1n, msb_leafIdx hn hi2n]
      by_cases hb1 : i1 + Dn n < 2 * n
      · by_cases hb2 : (i2 - 1) + Dn n < 2 * n
        · rw [if_pos hb1, if_pos hb2]
          exact Or.inl rfl
        · rw [if_pos hb1, if_neg hb2]
          have h2D : 2 ≤ Dn n := by omega
          obtain ⟨hhalf, _⟩ := pow2_half (Dn_pow2 hn) h2D
          exact Or.inr (by omega)
      · have hb2 : ¬((i2 - 1) + Dn n < 2 * n) := by omega
        rw [if_neg hb1, if_neg hb2]
        exact Or.inl rfl

theorem foldl_init {T : Type} (op : T → T → T) (e : T)
    (hassoc : ∀ a b c, op (op a b) c = op a (op b c))
    (hidl : ∀ a, op e a = a) (hidr : ∀ a, op a e = a) :
    ∀ (l : List T) (x : T), List.foldl op x l = op x (List.foldl op e l) := by
  intro l
  induction l with
  | nil => intro x; rw [List.foldl_nil, List.foldl_nil, hidr]
  | cons a l ih =>
    intro x
    rw [List.foldl_cons, List.foldl_cons, hidl, ih (op x a), ih a, hassoc]

theorem foldl_perm {T : Type} (op : T → T → T)
    (hassoc : ∀ a b c, op (op a b) c = op a (op b c))
    (hcomm : ∀ a b, op a b = op b a) :
    ∀ {l1 l2 : List T}, l1.Perm l2 →
      ∀ x, List.foldl op x l1 = List.foldl op x l2 := by
  intro l1 l2 hp
  induction hp with
  | nil => intro x; rfl
  | cons a p ih =>
    intro x
    rw [List.foldl_cons, List.foldl_cons]
    exact ih (op x a)
  | swap a b l =>
    intro x
    rw [List.foldl_cons, List.foldl_cons, List.foldl_cons, List.foldl_cons]
    have : op (op x b) a = op (op x a) b := by
      rw [hassoc, hcomm b a, ← hassoc]
    rw [this]
  | trans p1 p2 ih1 ih2 =>
    intro x
    rw [ih1 x, ih2 x]

theorem foldl_op_map {T : Type} (op : T → T → T) (h : ℕ → T) :
    ∀ (vs : List ℕ) (x : T),
      vs.foldl (fun r v => op r (h v)) x = List.foldl op x (vs.map h) := by
  intro vs
  induction vs with
  | nil => intro x; rfl
  | cons v vs ih =>
    intro x
    rw [List.foldl_cons, List.map_cons, List.foldl_cons]
    exact ih (op x (h v))

theorem getFold_map {T : Type} (op : T → T → T) (e : T) (h : ℕ → T)
    (vs : List ℕ) : getFold op e h vs = List.foldl op e (vs.map h) :=
  foldl_op_map op h vs e

/-- Under the structural invariant, every node's cell holds the fold of the
logical values over its subtree leaves. -/
theorem node_val {T : Type} (op : T → T → T) (e : T)
    (hassoc : ∀ a b c, op (op a b) c = op a (op b c))
    (hidl : ∀ a, op e a = a) (hidr : ∀ a, op a e = a)
    {n : ℕ} (hn : 1 ≤ n) {h : ℕ → T} (hinv : HeapInv op n h) :
    ∀ m j, 2 * n - j ≤ m → 1 ≤ j → j ≤ 2 * n - 1 →
      h j = List.foldl op e ((leavesUnder n j).map (grReadOne n h)) := by
  intro m
  induction m with
  | zero => intro j h0 h1 h2; omega
  | succ m ih =>
    intro j hm h1 h2
    rcases Nat.lt_or_ge j n with hlt | hge
    · have ihl := ih (2 * j) (by omega) (by omega) (by omega)
      have ihr := ih (2 * j + 1) (by omega) (by omega) (by omega)
      rw [leavesUnder, if_neg (by omega)]
      rw [List.map_append, List.foldl_append, ← ihl]
      rw [foldl_init op e hassoc hidl hidr, ← ihr]
      exact hinv j h1 hlt
    · rw [leavesUnder, if_pos (Or.inl hge), if_neg (by omega)]
      rw [List.map_cons, List.map_nil, List.foldl_cons, List.foldl_nil, hidl]
      show h j = grReadOne n h (posIdx n j)
      unfold grReadOne
      rw [leafIdx_posIdx hn hge h2]

/-- Folding the per-node values of a visitation list equals folding the
logical values over the concatenation of the nodes' leaf blocks. -/
theorem fold_blocks {T : Type} (op : T → T → T) (e : T)
    (hassoc : ∀ a b c, op (op a b) c = op a (op b c))
    (hidl : ∀ a, op e a = a) (hidr : ∀ a, op a e = a)
    (n : ℕ) (h : ℕ → T) (g : ℕ → T) :
    ∀ vs : List ℕ,
      (∀ v ∈ vs, h v = List.foldl op e ((leavesUnder n v).map g)) →
      ∀ x, List.foldl op x (vs.map h) =
        List.foldl op x ((vs.flatMap (leavesUnder n)).map g) := by
  intro vs
  induction vs with
  | nil => intro _ x; rfl
  | cons v vs ih =>
    intro hv x
    rw [List.map_cons, List.foldl_cons, List.flatMap_cons, List.map_append,
      List.foldl_append]
    have hhead : op x (h v) = List.foldl op x ((leavesUnder n v).map g) := by
      rw [foldl_init op e hassoc hidl hidr, hv v (List.mem_cons_self v vs)]
    rw [ih (fun w hw => hv w (List.mem_cons_of_mem v hw)) (op x (h v)), hhead]

/-- C1: for the point-update/range-query tree over an associative,
commutative operation with two-sided identity, on every heap reachable from
construction by mutating calls, `accumulate(i1, i2)` equals the left fold of
the operation, started at the identity, over the logical element values at
positions `i1, …, i2-1`. -/
theorem gutter_C1 {T : Type} (op : T → T → T) (e : T)
    (hassoc : ∀ a b c, op (op a b) c = op a (op b c))
    (hcomm : ∀ a b, op a b = op b a)
    (hidl : ∀ a, op e a = a) (hidr : ∀ a, op a e = a)
    (n : ℕ) (h : ℕ → T) (hr : GrReachable op e n h)
    (i1 i2 : ℕ) (h12 : i1 ≤ i2) (h2n : i2 ≤ n) :
    grAccumulate op e n h i1 i2 =
      List.foldl op e ((List.range' i1 (i2 - i1)).map (grReadOne n h)) := by
  rcases Nat.eq_or_lt_of_le h12 with rfl | hlt
  · unfold grAccumulate
    rw [if_pos (le_refl i1), show i1 - i1 = 0 by omega]
    rfl
  · have hn : 1 ≤ n := by omega
    have hinv := reachable_inv op e hidl n h hr
    have hi1n : i1 < n := by omega
    have hi2n : i2 - 1 < n := by omega
    have hL1 := leafIdx_lb hn hi1n
    have hL2 := leafIdx_ub hn hi1n
    have hR1 := leafIdx_lb hn hi2n
    have hR2 := leafIdx_ub hn hi2n
    obtain ⟨hbounds, hperm⟩ := mca_partition hn (fuelFor n) (leafIdx n i1)
      (leafIdx n (i2 - 1)) (by unfold fuelFor; omega) (by omega) hL2
      (by omega) hR2 (mca_init hn hlt h2n)
    rw [leafLo_leaf hL1, leafHi_leaf hR1, posIdx_leafIdx hn hi1n,
      posIdx_leafIdx hn hi2n,
      show i2 - 1 + 1 - i1 = i2 - i1 by omega] at hperm
    unfold grAccumulate
    rw [if_neg (by omega), getFold_map]
    rw [fold_blocks op e hassoc hidl hidr n h (grReadOne n h) _
      (fun v hv => node_val op e hassoc hidl hidr hn hinv (2 * n) v
        (by omega) (hbounds v hv).1 (hbounds v hv).2) e]
    exact foldl_perm op hassoc hcomm (hperm.map (grReadOne n h)) e

/-- Any node on the ancestor chain with a positive parent is followed by that
parent on the chain. -/
theorem mem_pathL_parent {w : ℕ} (hw : 1 ≤ w / 2) :
    ∀ l, w ∈ pathL l → w / 2 ∈ pathL l := by
  intro l
  induction l using Nat.strong_induction_on with
  | _ l ih =>
    intro hm
    rcases Nat.eq_zero_or_pos l with rfl | hl
    · rw [pathL_zero] at hm
      simp at hm
    · rw [pathL_succ (by omega)] at hm
      rw [pathL_succ (by omega)]
      rcases List.mem_cons.mp hm with rfl | hm
      · exact List.mem_cons_of_mem _ (self_mem_pathL hw)
      · exact List.mem_cons_of_mem _ (ih (l / 2) (by omega) hm)

/-- Any chain member other than the starting leaf has one of its children on
the chain. -/
theorem mem_pathL_child {v : ℕ} :
    ∀ l, 1 ≤ l → v ∈ pathL l →
      v = l ∨ 2 * v ∈ pathL l ∨ 2 * v + 1 ∈ pathL l := by
  intro l
  induction l using Nat.strong_induction_on with
  | _ l ih =>
    intro hl hm
    rw [pathL_succ (by omega)] at hm
    rcases List.mem_cons.mp hm with rfl | hm
    · exact Or.inl rfl
    · rcases Nat.eq_zero_or_pos (l / 2) with hz | hpos
      · rw [hz, pathL_zero] at hm
        simp at hm
      · rcases ih (l / 2) (by omega) hpos hm with rfl | hm2 | hm2
        · rcases (show l = 2 * (l / 2) ∨ l = 2 * (l / 2) + 1 by omega)
            with hc | hc
          · refine Or.inr (Or.inl ?_)
            rw [← hc]
            exact self_mem_pathL (by omega)
          · refine Or.inr (Or.inr ?_)
            rw [← hc]
            exact self_mem_pathL (by omega)
        · exact Or.inr (Or.inl (by
            rw [pathL_succ (by omega : l ≠ 0)]
            exact List.mem_cons_of_mem _ hm2))
        · exact Or.inr (Or.inr (by
            rw [pathL_succ (by omega : l ≠ 0)]
            exact List.mem_cons_of_mem _ hm2))

/-- A leaf's position lies in a node's subtree block exactly when the node is
an ancestor of the leaf cell. -/
theorem mem_leavesUnder_iff_path {n : ℕ} (hn : 1 ≤ n) {l : ℕ} (hl1 : n ≤ l)
    (hl2 : l ≤ 2 * n - 1) :
    ∀ m v, 2 * n - v ≤ m → 1 ≤ v → v ≤ 2 * n - 1 →
      (posIdx n l ∈ leavesUnder n v ↔ v ∈ pathL l) := by
  intro m
  induction m with
  | zero => intro v h0 h1 h2; omega
  | succ m ih =>
    intro v hm h1 h2
    rcases Nat.lt_or_ge v n with hlt | hge
    · rw [leavesUnder, if_neg (by omega), List.mem_append]
      rw [ih (2 * v) (by omega) (by omega) (by omega),
        ih (2 * v + 1) (by omega) (by omega) (by omega)]
      constructor
      · intro hc
        rcases hc with hc | hc
        · have := mem_pathL_parent (show 1 ≤ 2 * v / 2 by omega) l hc
          rw [show 2 * v / 2 = v by omega] at this
          exact this
        · have := mem_pathL_parent (show 1 ≤ (2 * v + 1) / 2 by omega) l hc
          rw [show (2 * v + 1) / 2 = v by omega] at this
          exact this
      · intro hc
        rcases mem_pathL_child l (by omega) hc with rfl | hc2 | hc2
        · omega
        · exact Or.inl hc2
        · exact Or.inr hc2
    · rw [leavesUnder, if_pos (Or.inl hge), if_neg (by omega),
        List.mem_singleton]
      constructor
      · intro hc
        have hlv : l = v := by
          rw [← leafIdx_posIdx hn hl1 hl2, hc, leafIdx_posIdx hn hge h2]
        rw [← hlv]
        exact self_mem_pathL (by omega)
      · intro hc
        rcases mem_pathL_cases hc with rfl | hc2
        · rfl
        · omega

theorem foldl_float {T : Type} (op : T → T → T)
    (hassoc : ∀ a b c, op (op a b) c = op a (op b c))
    (hcomm : ∀ a b, op a b = op b a) (h : ℕ → T) (x : T) :
    ∀ (P : List ℕ) (s : T),
      P.foldl (fun r w => op r (h w)) (op s x) =
        op (P.foldl (fun r w => op r (h w)) s) x := by
  intro P
  induction P with
  | nil => intro s; rfl
  | cons w P ih =>
    intro s
    rw [List.foldl_cons, List.foldl_cons]
    rw [show op (op s x) (h w) = op (op s (h w)) x by
      rw [hassoc, hcomm x (h w), ← hassoc]]
    exact ih (op s (h w))

/-- Read-back along a visitation list after combining `x` into one listed
cell: the accumulated value gains exactly one `x`. -/
theorem foldl_upd_mem {T : Type} (op : T → T → T)
    (hassoc : ∀ a b c, op (op a b) c = op a (op b c))
    (hcomm : ∀ a b, op a b = op b a) (h : ℕ → T) (x : T) {v : ℕ} :
    ∀ (P : List ℕ), P.Nodup → v ∈ P → ∀ s,
      P.foldl (fun r w => op r (upd h v (op (h v) x) w)) s =
        op (P.foldl (fun r w => op r (h w)) s) x := by
  intro P
  induction P with
  | nil => intro _ hm; simp at hm
  | cons w P ih =>
    intro hnd hm s
    obtain ⟨hwp, hndP⟩ := List.pairwise_cons.mp hnd
    rw [List.foldl_cons, List.foldl_cons]
    rcases List.mem_cons.mp hm with rfl | hm
    · rw [upd_same]
      rw [foldl_congr_on op _ h P (fun w hw => upd_other h v w _
        (fun hc => hwp w hw hc.symm))]
      rw [show op s (op (h v) x) = op (op s (h v)) x by rw [hassoc]]
      exact foldl_float op hassoc hcomm h x P (op s (h v))
    · rw [upd_other h v w _ (hwp v hm)]
      exact ih hndP hm (op s (h w))

theorem foldl_upd_not_mem {T : Type} (op : T → T → T) (h : ℕ → T) (y : T)
    {v : ℕ} (P : List ℕ) (hm : v ∉ P) (s : T) :
    P.foldl (fun r w => op r (upd h v y w)) s =
      P.foldl (fun r w => op r (h w)) s :=
  foldl_congr_on op _ h P (fun w hw => upd_other h v w y
    (fun hc => hm (hc ▸ hw))) s

/-- Read-back along a fixed visitation list after an `applyRange` write pass:
each written node that lies on the list contributes one `x`, in write
order. -/
theorem applyFold_path {T : Type} (op : T → T → T)
    (hassoc : ∀ a b c, op (op a b) c = op a (op b c))
    (hcomm : ∀ a b, op a b = op b a) (x : T) {P : List ℕ} (hnd : P.Nodup) :
    ∀ (vs : List ℕ) (hh : ℕ → T) (s : T),
      P.foldl (fun r w => op r (applyFold op hh vs x w)) s =
        List.foldl (fun r v => if v ∈ P then op r x else r)
          (P.foldl (fun r w => op r (hh w)) s) vs := by
  intro vs
  induction vs with
  | nil => intro hh s; rfl
  | cons v vs ih =>
    intro hh s
    show P.foldl
        (fun r w => op r (applyFold op (upd hh v (op (hh v) x)) vs x w)) s = _
    rw [ih (upd hh v (op (hh v) x)) s]
    simp only [List.foldl_cons]
    by_cases hm : v ∈ P
    · rw [foldl_upd_mem op hassoc hcomm hh x P hnd hm s, if_pos hm]
    · rw [foldl_upd_not_mem op hh _ P hm s, if_neg hm]

theorem foldl_hits_zero {T : Type} (op : T → T → T) (x : T) (P : List ℕ) :
    ∀ (vs : List ℕ) (F : T),
      List.countP (fun v => decide (v ∈ P)) vs = 0 →
      List.foldl (fun r v => if v ∈ P then op r x else r) F vs = F := by
  intro vs
  induction vs with
  | nil => intro F _; rfl
  | cons v vs ih =>
    intro F hc
    rw [List.countP_cons] at hc
    have hnm : v ∉ P := by
      intro hm
      rw [if_pos (decide_eq_true hm)] at hc
      omega
    rw [List.foldl_cons, if_neg hnm]
    exact ih F (by omega)

theorem foldl_hits_one {T : Type} (op : T → T → T) (x : T) (P : List ℕ) :
    ∀ (vs : List ℕ) (F : T),
      List.countP (fun v => decide (v ∈ P)) vs = 1 →
      List.foldl (fun r v => if v ∈ P then op r x else r) F vs = op F x := by
  intro vs
  induction vs with
  | nil => intro F hc; simp at hc
  | cons v vs ih =>
    intro F hc
    rw [List.countP_cons] at hc
    rw [List.foldl_cons]
    by_cases hm : v ∈ P
    · rw [if_pos (decide_eq_true hm)] at hc
      rw [if_pos hm]
      exact foldl_hits_zero op x P vs (op F x) (by omega)
    · rw [if_neg (by simpa using hm)] at hc
      rw [if_neg hm]
      exact ih F (by omega)

/-- The number of visited nodes lying on a leaf's ancestor chain equals the
multiplicity of the leaf's position in the visited subtree blocks. -/
theorem countP_path_eq_count {n : ℕ} (hn : 1 ≤ n) {i : ℕ} (hi : i < n) :
    ∀ vs : List ℕ, (∀ v ∈ vs, 1 ≤ v ∧ v ≤ 2 * n - 1) →
      List.countP (fun v => decide (v ∈ pathL (leafIdx n i))) vs =
        List.count i (vs.flatMap (leavesUnder n)) := by
  intro vs
  induction vs with
  | nil => intro _; rfl
  | cons v vs ih =>
    intro hb
    have hbv := hb v (List.mem_cons_self v vs)
    rw [List.countP_cons, List.flatMap_cons, List.count_append]
    have hiff := mem_leavesUnder_iff_path hn (leafIdx_lb hn hi)
      (leafIdx_ub hn hi) (2 * n) v (by omega) hbv.1 hbv.2
    rw [posIdx_leafIdx hn hi] at hiff
    obtain ⟨hlu, _⟩ := leavesUnder_eq hn (2 * n) v (by omega) hbv.1 hbv.2
    have hcnt : List.count i (leavesUnder n v) =
        if v ∈ pathL (leafIdx n i) then 1 else 0 := by
      by_cases hm : v ∈ pathL (leafIdx n i)
      · rw [if_pos hm]
        refine List.count_eq_one_of_mem ?_ (hiff.mpr hm)
        rw [hlu]
        exact List.nodup_range' _ _ 1 (by omega)
      · rw [if_neg hm]
        exact List.count_eq_zero_of_not_mem (fun hc => hm (hiff.mp hc))
    rw [hcnt, ih (fun w hw => hb w (List.mem_cons_of_mem v hw))]
    by_cases hm : v ∈ pathL (leafIdx n i)
    · rw [if_pos (decide_eq_true hm), if_pos hm]
      omega
    · rw [if_neg (by simpa using hm), if_neg hm]
      omega

/-- One `gutter_apply::apply(i1, i2, x)` call shifts every in-range point
read by `x` and leaves every out-of-range point read unchanged. -/
theorem gaApplyRange_read {T : Type} (op : T → T → T) (e : T)
    (hassoc : ∀ a b c, op (op a b) c = op a (op b c))
    (hcomm : ∀ a b, op a b = op b a)
    (n : ℕ) (h : ℕ → T) (i i1 i2 : ℕ) (hi : i < n) (h2n : i2 ≤ n) (x : T) :
    gaReadOne op e n (gaApplyRange op n h i1 i2 x) i =
      if i1 ≤ i ∧ i < i2 then op (gaReadOne op e n h i) x
      else gaReadOne op e n h i := by
  by_cases hrange : i1 ≥ i2
  · unfold gaApplyRange
    rw [if_pos hrange, if_neg (by omega)]
  · push_neg at hrange
    have hn : 1 ≤ n := by omega
    have hi1n : i1 < n := by omega
    have hi2n : i2 - 1 < n := by omega
    have hL2 := leafIdx_ub hn hi1n
    have hR2 := leafIdx_ub hn hi2n
    obtain ⟨hbounds, hperm⟩ := mca_partition hn (fuelFor n) (leafIdx n i1)
      (leafIdx n (i2 - 1)) (by unfold fuelFor; omega)
      (by have := leafIdx_lb hn hi1n; omega) hL2
      (by have := leafIdx_lb hn hi2n; omega) hR2 (mca_init hn hrange h2n)
    rw [leafLo_leaf (leafIdx_lb hn hi1n), leafHi_leaf (leafIdx_lb hn hi2n),
      posIdx_leafIdx hn hi1n, posIdx_leafIdx hn hi2n,
      show i2 - 1 + 1 - i1 = i2 - i1 by omega] at hperm
    have hnd : (pathL (leafIdx n i)).Nodup :=
      List.Pairwise.imp (fun hab => Ne.symm hab.1) (pathL_pairwise _)
    have hcountP : List.countP (fun v => decide (v ∈ pathL (leafIdx n i)))
        (mcaList (fuelFor n) (leafIdx n i1) (leafIdx n (i2 - 1))) =
        if i1 ≤ i ∧ i < i2 then 1 else 0 := by
      rw [countP_path_eq_count hn hi _ hbounds, hperm.count_eq i]
      by_cases hm : i1 ≤ i ∧ i < i2
      · rw [if_pos hm]
        exact List.count_eq_one_of_mem (List.nodup_range' _ _ 1 (by omega))
          (List.mem_range'_1.mpr ⟨hm.1, by omega⟩)
      · rw [if_neg hm]
        exact List.count_eq_zero_of_not_mem
          (fun hc => hm (by have := List.mem_range'_1.mp hc; omega))
    unfold gaApplyRange gaReadOne
    rw [if_neg (by omega)]
    show (pathL (leafIdx n i)).foldl
        (fun r w => op r (applyFold op h (mcaList (fuelFor n) (leafIdx n i1)
          (leafIdx n (i2 - 1))) x w)) e = _
    rw [applyFold_path op hassoc hcomm x hnd
      (mcaList (fuelFor n) (leafIdx n i1) (leafIdx n (i2 - 1))) h e]
    by_cases hm : i1 ≤ i ∧ i < i2
    · rw [if_pos hm] at hcountP
      rw [if_pos hm]
      exact foldl_hits_one op x _ _ _ hcountP
    · rw [if_neg hm] at hcountP
      rw [if_neg hm]
      exact foldl_hits_zero op x _ _ _ hcountP

/-- Iterating `gaApplyRange_read` over a call sequence. -/
theorem gaApplyCalls_read {T : Type} (op : T → T → T) (e : T)
    (hassoc : ∀ a b c, op (op a b) c = op a (op b c))
    (hcomm : ∀ a b, op a b = op b a)
    (n i : ℕ) (hi : i < n) :
    ∀ (calls : List (ℕ × ℕ × T)) (h : ℕ → T), (∀ c ∈ calls, c.2.1 ≤ n) →
      gaReadOne op e n (gaApplyCalls op n h calls) i =
        List.foldl
          (fun acc c => if c.1 ≤ i ∧ i < c.2.1 then op acc c.2.2 else acc)
          (gaReadOne op e n h i) calls := by
  intro calls
  induction calls with
  | nil => intro h _; rfl
  | cons c calls ih =>
    intro h hvalid
    show gaReadOne op e n
        (gaApplyCalls op n (gaApplyRange op n h c.1 c.2.1 c.2.2) calls) i = _
    rw [ih _ (fun c' hc' => hvalid c' (List.mem_cons_of_mem c hc'))]
    rw [gaApplyRange_read op e hassoc hcomm n h i c.1 c.2.1 hi
      (hvalid c (List.mem_cons_self c calls)) c.2.2]
    simp only [List.foldl_cons]

/-- A point read of the freshly constructed tree returns the identity. -/
theorem gaReadOne_fresh {T : Type} (op : T → T → T) (e : T)
    (hidr : ∀ a, op a e = a) (n i : ℕ) :
    gaReadOne op e n (freshHeap e) i = e := by
  have haux : ∀ (P : List ℕ) (s : T), P.foldl (fun r w => op r e) s = s := by
    intro P
    induction P with
    | nil => intro s; rfl
    | cons v P ih =>
      intro s
      rw [List.foldl_cons, hidr]
      exact ih s
  exact haux (pathL (leafIdx n i)) e

theorem foldl_if_filter_map {T U : Type} (op : T → T → T)
    (p : U → Prop) [DecidablePred p] (val : U → T) :
    ∀ (calls : List U) (F : T),
      List.foldl (fun acc c => if p c then op acc (val c) else acc) F calls =
        List.foldl op F ((calls.filter (fun c => decide (p c))).map val) := by
  intro calls
  induction calls with
  | nil => intro F; rfl
  | cons c calls ih =>
    intro F
    simp only [List.foldl_cons, List.filter_cons]
    by_cases hp : p c
    · rw [if_pos hp, if_pos (decide_eq_true hp), List.map_cons,
        List.foldl_cons]
      exact ih (op F (val c))
    · rw [if_neg hp, if_neg (by simpa using hp)]
      exact ih F

/-- C2 (amended with commutativity): for the range-update/point-query tree
over an associative, commutative operation with two-sided identity, after
any sequence of `applyRange` calls on a fresh tree, a point read returns the
fold of the operation over the values of exactly those calls whose interval
contains the index, in call order. -/
theorem gutter_C2 {T : Type} (op : T → T → T) (e : T)
    (hassoc : ∀ a b c, op (op a b) c = op a (op b c))
    (hcomm : ∀ a b, op a b = op b a)
    (hidl : ∀ a, op e a = a) (hidr : ∀ a, op a e = a)
    (n : ℕ) (calls : List (ℕ × ℕ × T)) (hvalid : ∀ c ∈ calls, c.2.1 ≤ n)
    (i : ℕ) (hi : i < n) :
    gaReadOne op e n (gaApplyCalls op n (freshHeap e) calls) i =
      List.foldl op e
        ((calls.filter (fun c => decide (c.1 ≤ i ∧ i < c.2.1))).map
          (fun c => c.2.2)) := by
  rw [gaApplyCalls_read op e hassoc hcomm n i hi calls (freshHeap e) hvalid]
  rw [gaReadOne_fresh op e hidr n i]
  exact foldl_if_filter_map op _ _ calls e

/-- Witness for C2: integer sum, `n = 2`, two calls, read at index `1`. -/
theorem gutter_C2_witness :
    gaReadOne (· + ·) (0 : ℤ) 2
      (gaApplyCalls (· + ·) 2 (freshHeap 0) [(0, 2, 3), (1, 2, 4)]) 1 =
      List.foldl (· + ·) 0
        (([(0, 2, (3 : ℤ)), (1, 2, 4)].filter
          (fun c => decide (c.1 ≤ 1 ∧ 1 < c.2.1))).map (fun c => c.2.2)) :=
  gutter_C2 (· + ·) 0 (fun a b c => add_assoc a b c) (fun a b => add_comm a b)
    (fun a => zero_add a) (fun a => add_zero a) 2 [(0, 2, 3), (1, 2, 4)]
    (by intro c hc; fin_cases hc <;> decide) 1 (by omega)

/-- Shape of the ordered leaf walk over a nonempty logical range: it is
duplicate-free, visits exactly `i2 - i1` cells, and stays in the leaf
region. -/
theorem walk_props {n : ℕ} (hn : 1 ≤ n) {i1 i2 : ℕ} (h12 : i1 < i2)
    (h2n : i2 ≤ n) :
    (walkList n (fuelFor n) (leafIdx n i1) (leafIdx n (i2 - 1) + 1)).Nodup ∧
    (walkList n (fuelFor n) (leafIdx n i1) (leafIdx n (i2 - 1) + 1)).length
      = i2 - i1 ∧
    (∀ w ∈ walkList n (fuelFor n) (leafIdx n i1) (leafIdx n (i2 - 1) + 1),
      n ≤ w) := by
  have hD1 := le_Dn hn
  have hD2 := Dn_le hn
  have hD3 := lt_two_Dn hn
  have hi1n : i1 < n := by omega
  have hi2n : i2 - 1 < n := by omega
  have hLv := leafIdx_if n i1
  have hRv := leafIdx_if n (i2 - 1)
  by_cases hb1 : i1 + Dn n < 2 * n
  · by_cases hb2 : (i2 - 1) + Dn n < 2 * n
    · rw [if_pos hb1] at hLv
      rw [if_pos hb2] at hRv
      have hw := walk_plain n (leafIdx n (i2 - 1) - leafIdx n i1) (fuelFor n)
        (leafIdx n i1) (by unfold fuelFor; omega) (by omega)
      rw [show leafIdx n i1 + (leafIdx n (i2 - 1) - leafIdx n i1) + 1 =
        leafIdx n (i2 - 1) + 1 by omega] at hw
      rw [hw]
      refine ⟨List.nodup_range' _ _ 1 (by omega), ?_, ?_⟩
      · rw [List.length_range']
        omega
      · intro w hw2
        have := List.mem_range'_1.mp hw2
        omega
    · rw [if_pos hb1] at hLv
      rw [if_neg hb2] at hRv
      have hw := walk_wrap n hn (2 * n - 1 - leafIdx n i1) (fuelFor n)
        (leafIdx n i1) (leafIdx n (i2 - 1)) (by omega) (by omega) (by omega)
        (by unfold fuelFor; omega)
      rw [hw]
      refine ⟨?_, ?_, ?_⟩
      · rw [List.nodup_append]
        refine ⟨List.nodup_range' _ _ 1 (by omega),
          List.nodup_range' _ _ 1 (by omega), ?_⟩
        intro a ha hb
        have hm1 := List.mem_range'_1.mp ha
        have hm2 := List.mem_range'_1.mp hb
        omega
      · rw [List.length_append, List.length_range', List.length_range']
        omega
      · intro w hw2
        rcases List.mem_append.mp hw2 with hw2 | hw2
        · have := List.mem_range'_1.mp hw2
          omega
        · have := List.mem_range'_1.mp hw2
          omega
  · have hb2 : ¬((i2 - 1) + Dn n < 2 * n) := by omega
    rw [if_neg hb1] at hLv
    rw [if_neg hb2] at hRv
    have hw := walk_plain n (leafIdx n (i2 - 1) - leafIdx n i1) (fuelFor n)
      (leafIdx n i1) (by unfold fuelFor; omega) (by omega)
    rw [show leafIdx n i1 + (leafIdx n (i2 - 1) - leafIdx n i1) + 1 =
      leafIdx n (i2 - 1) + 1 by omega] at hw
    rw [hw]
    refine ⟨List.nodup_range' _ _ 1 (by omega), ?_, ?_⟩
    · rw [List.length_range']
      omega
    · intro w hw2
      have := List.mem_range'_1.mp hw2
      omega

/-- Reading back a duplicate-free visitation list after writing a
same-length input through it returns the input. -/
theorem setFold_map {T : Type} :
    ∀ (vs : List ℕ) (xs : List T) (h : ℕ → T), vs.Nodup →
      vs.length = xs.length → vs.map (setFold h vs xs) = xs := by
  intro vs
  induction vs with
  | nil =>
    intro xs h _ hlen
    cases xs with
    | nil => rfl
    | cons x xs => simp at hlen
  | cons v vs ih =>
    intro xs h hnd hlen
    cases xs with
    | nil => simp at hlen
    | cons x xs =>
      obtain ⟨hv, hndv⟩ := List.pairwise_cons.mp hnd
      show (v :: vs).map (setFold (upd h v x) vs xs) = x :: xs
      rw [List.map_cons]
      congr 1
      · rw [setFold_not_mem vs xs _ (fun hc => hv v hc rfl), upd_same]
      · exact ih xs (upd h v x) hndv (by simpa using hlen)

theorem pow2sLEA_mem : ∀ (f i b w : ℕ), w ∈ pow2sLEA f i b → i ≤ w ∧ w ≤ b := by
  intro f
  induction f with
  | zero => intro i b w hw; simp [pow2sLEA] at hw
  | succ f ih =>
    intro i b w hw
    simp only [pow2sLEA] at hw
    split at hw
    · rcases List.mem_cons.mp hw with rfl | hw
      · omega
      · have := ih (2 * i) b w hw
        omega
    · simp at hw

theorem pow2sLE_mem {i b w : ℕ} (hw : w ∈ pow2sLE i b) : i ≤ w ∧ w ≤ b :=
  pow2sLEA_mem (b + 1) i b w hw

theorem msb_two_mul_add_one {x : ℕ} (hx : 1 ≤ x) :
    msb (2 * x + 1) = 2 * msb x := by
  rw [msb_unfold, if_neg (by omega), show (2 * x + 1) / 2 = x by omega]

/-- `index_ancestor_in_row` lands in the row `[r, 2r-1]` whenever the start
is at or below that row. -/
theorem ancInRow_row : ∀ j r, 1 ≤ r → r ≤ j →
    r ≤ ancInRow j r ∧ ancInRow j r ≤ 2 * r - 1 := by
  intro j
  induction j using Nat.strong_induction_on with
  | _ j ih =>
    intro r hr1 hrj
    rw [ancInRow_unfold]
    by_cases hc : 1 ≤ r ∧ r ≤ j / 2
    · rw [if_pos hc]
      exact ih (j / 2) (by omega) r hr1 hc.2
    · rw [if_neg hc]
      omega

/-- Members of a root-down consolidation block: row `i`, internal. -/
theorem rdBlock_mem {n i1 i2 : ℕ} (hn : 1 ≤ n) {i : ℕ} (hp : Pow2 i)
    (hi1 : 1 ≤ i) (hii1 : i ≤ i1) (h1 : i1 ≤ n - 1) (h2 : i2 ≤ n - 1)
    {v : ℕ} (hv : v ∈ List.range' (ancInRow i1 i)
      (ancInRow (if i ≤ i2 then i2 else 2 * n - 1) i + 1 - ancInRow i1 i)) :
    msb v = i ∧ 1 ≤ v ∧ v ≤ n - 1 := by
  obtain ⟨hlo1, hlo2⟩ := ancInRow_row i1 i hi1 hii1
  have hvm := List.mem_range'_1.mp hv
  by_cases hc : i ≤ i2
  · rw [if_pos hc] at hvm
    obtain ⟨hhi1, hhi2⟩ := ancInRow_row i2 i hi1 hc
    have hhle := ancInRow_le i2 i
    refine ⟨msb_eq_of_pow2 hp (by omega) (by omega), by omega, by omega⟩
  · rw [if_neg hc] at hvm
    obtain ⟨hhi1, hhi2⟩ := ancInRow_row (2 * n - 1) i hi1 (by omega)
    have hstep : ancInRow (2 * n - 1) i ≤ n - 1 := by
      rw [ancInRow_unfold, if_pos ⟨hi1, by omega⟩]
      have := ancInRow_le ((2 * n - 1) / 2) i
      omega
    refine ⟨msb_eq_of_pow2 hp (by omega) (by omega), by omega, by omega⟩

/-- The root-down pair consolidation list: all members are internal cells in
ascending rows, so no earlier member is a child of a later member. -/
theorem rdPair_props {n : ℕ} (hn : 1 ≤ n) (i1 i2 : ℕ) (h1 : i1 ≤ n - 1)
    (h2 : i2 ≤ n - 1) :
    (∀ v ∈ rdPair n i1 i2, 1 ≤ v ∧ v ≤ n - 1) ∧
    (rdPair n i1 i2).Pairwise (fun x y => x ≠ 2 * y ∧ x ≠ 2 * y + 1) := by
  have hrd : rdPair n i1 i2 = (pow2sLE 1 i1).flatMap (fun i =>
      List.range' (ancInRow i1 i)
        (ancInRow (if i ≤ i2 then i2 else 2 * n - 1) i + 1 -
          ancInRow i1 i)) := rfl
  have haux : ∀ f i, 1 ≤ i → Pow2 i →
      (∀ v ∈ (pow2sLEA f i i1).flatMap (fun i =>
        List.range' (ancInRow i1 i)
          (ancInRow (if i ≤ i2 then i2 else 2 * n - 1) i + 1 -
            ancInRow i1 i)), i ≤ msb v ∧ 1 ≤ v ∧ v ≤ n - 1) ∧
      ((pow2sLEA f i i1).flatMap (fun i =>
        List.range' (ancInRow i1 i)
          (ancInRow (if i ≤ i2 then i2 else 2 * n - 1) i + 1 -
            ancInRow i1 i))).Pairwise (fun x y => msb x ≤ msb y ∧ 1 ≤ y) := by
    intro f
    induction f with
    | zero =>
      intro i _ _
      exact ⟨fun v hv => by simp [pow2sLEA] at hv,
        by simp [pow2sLEA]⟩
    | succ f ih =>
      intro i hi1 hp
      rw [show pow2sLEA (f + 1) i i1 =
        if 1 ≤ i ∧ i ≤ i1 then i :: pow2sLEA f (2 * i) i1 else [] from rfl]
      by_cases hc : 1 ≤ i ∧ i ≤ i1
      · rw [if_pos hc]
        obtain ⟨ihm, ihp⟩ := ih (2 * i) (by omega) (pow2_double hp)
        rw [List.flatMap_cons]
        constructor
        · intro v hv
          rcases List.mem_append.mp hv with hv | hv
          · obtain ⟨hrow, hv1, hv2⟩ := rdBlock_mem hn hp hi1 hc.2 h1 h2 hv
            omega
          · have := ihm v hv
            omega
        · rw [List.pairwise_append]
          refine ⟨?_, ihp.imp (fun hab => ⟨hab.1, hab.2⟩), ?_⟩
          · have hall : ∀ v ∈ List.range' (ancInRow i1 i)
                (ancInRow (if i ≤ i2 then i2 else 2 * n - 1) i + 1 -
                  ancInRow i1 i), msb v = i ∧ 1 ≤ v :=
              fun v hv => ⟨(rdBlock_mem hn hp hi1 hc.2 h1 h2 hv).1,
                (rdBlock_mem hn hp hi1 hc.2 h1 h2 hv).2.1⟩
            refine List.Pairwise.imp_of_mem ?_
              (List.pairwise_lt_range' _ _ 1 (by omega))
            intro a b ha hb _
            exact ⟨by rw [(hall a ha).1, (hall b hb).1], (hall b hb).2⟩
          · intro a ha b hb
            have h1a := rdBlock_mem hn hp hi1 hc.2 h1 h2 ha
            have h1b := ihm b hb
            exact ⟨by omega, by omega⟩
      · rw [if_neg hc]
        exact ⟨fun v hv => by simp at hv, by simp⟩
  obtain ⟨hm, hpw⟩ := haux (i1 + 1) 1 (le_refl 1) pow2_one
  constructor
  · intro v hv
    have := hm v (by rw [hrd] at hv; exact hv)
    omega
  · rw [hrd]
    refine List.Pairwise.imp_of_mem ?_ hpw
    intro a b ha hb hab
    have hb1 : 1 ≤ b := hab.2
    constructor
    · intro hcn
      have : msb a = 2 * msb b := by rw [hcn, msb_two_mul hb1]
      have := msb_one_le hb1
      omega
    · intro hcn
      have : msb a = 2 * msb b := by rw [hcn, msb_two_mul_add_one hb1]
      have := msb_one_le hb1
      omega

/-- A consolidation step at a listed cell that no later listed cell can
re-fill keeps the cell at the identity. -/
theorem consFold_keeps_e {T : Type} (op : T → T → T) (e : T) :
    ∀ (vs : List ℕ) (h : ℕ → T) (a : ℕ), h a = e →
      (∀ b ∈ vs, a ≠ 2 * b ∧ a ≠ 2 * b + 1) → consFold op e h vs a = e := by
  intro vs
  induction vs with
  | nil => intro h a ha _; exact ha
  | cons b vs ih =>
    intro h a ha hb
    have hab := hb b (List.mem_cons_self b vs)
    show consFold op e (consolidateAt op e h b) vs a = e
    apply ih _ a ?_ (fun b' hb' => hb b' (List.mem_cons_of_mem b hb'))
    by_cases hcase : a = b
    · rw [hcase]
      exact consolidateAt_parent op e h b
    · rw [consolidateAt_other op e h hcase hab.1 hab.2]
      exact ha

/-- After a root-down consolidation pass whose order never revisits a
child before its parent, every listed cell holds the identity. -/
theorem consFold_sets_e {T : Type} (op : T → T → T) (e : T) :
    ∀ (vs : List ℕ) (h : ℕ → T),
      vs.Pairwise (fun x y => x ≠ 2 * y ∧ x ≠ 2 * y + 1) →
      ∀ v ∈ vs, consFold op e h vs v = e := by
  intro vs
  induction vs with
  | nil => intro h _ v hv; simp at hv
  | cons a vs ih =>
    intro h hpw v hv
    obtain ⟨hhead, htail⟩ := List.pairwise_cons.mp hpw
    rcases List.mem_cons.mp hv with rfl | hv
    · show consFold op e (consolidateAt op e h v) vs v = e
      exact consFold_keeps_e op e vs _ v (consolidateAt_parent op e h v) hhead
    · exact ih (consolidateAt op e h a) htail v hv

/-- Consolidating cells that already hold the identity is a no-op. -/
theorem consFold_id {T : Type} (op : T → T → T) (e : T)
    (hidr : ∀ a, op a e = a) :
    ∀ (vs : List ℕ) (h : ℕ → T), (∀ v ∈ vs, 1 ≤ v) →
      (∀ v ∈ vs, h v = e) → consFold op e h vs = h := by
  intro vs
  induction vs with
  | nil => intro h _ _; rfl
  | cons a vs ih =>
    intro h hpos he
    have ha1 := hpos a (List.mem_cons_self a vs)
    have hae := he a (List.mem_cons_self a vs)
    have hstep : consolidateAt op e h a = h := by
      funext j
      by_cases hj : j = a
      · rw [hj, consolidateAt_parent, hae]
      · by_cases hj2 : j = 2 * a
        · rw [hj2, consolidateAt_left op e h ha1, hae, hidr]
        · by_cases hj3 : j = 2 * a + 1
          · rw [hj3, consolidateAt_right op e h ha1, hae, hidr]
          · rw [consolidateAt_other op e h hj hj2 hj3]
    show consFold op e (consolidateAt op e h a) vs = h
    rw [hstep]
    exact ih h (fun v hv => hpos v (List.mem_cons_of_mem a hv))
      (fun v hv => he v (List.mem_cons_of_mem a hv))

/-- Every cell the pair leaf-up walk recomputes is internal. -/
theorem luPairList_lt_n {n : ℕ} (hn : 1 ≤ n) {a b : ℕ} (ha : a ≤ n - 1)
    (hb : b ≤ n - 1) : ∀ v ∈ luPairList n a b, v < n := by
  intro v hv
  unfold luPairList at hv
  by_cases hab : a > b
  · rw [if_pos hab] at hv
    rcases List.mem_append.mp hv with hv | hv
    · have hm := List.mem_range'_1.mp hv
      have hstep : ancInRow (2 * n - 1) (msb a) ≤ n - 1 := by
        have hma := msb_le (show 1 ≤ a by omega)
        have hma1 := msb_one_le (show 1 ≤ a by omega)
        rw [ancInRow_unfold, if_pos ⟨hma1, by omega⟩]
        have := ancInRow_le ((2 * n - 1) / 2) (msb a)
        omega
      omega
    · have := luAux_members _ _ hv
      omega
  · rw [if_neg hab] at hv
    have := luAux_members _ _ hv
    omega

/-- C7: for both tree variants over an associative, commutative operation
with two-sided identity, bulk-assigning a sequence over a leaf range and
then bulk-copying the identical bounds returns exactly the assigned values,
in order.  (`gutter_apply` has no bulk assign and `gutter_retrieve` no bulk
copy in the sources; those two operations are modelled from the spec, see
`gaAssignRange` and `grCopyRange`.) -/
theorem gutter_C7 {T : Type} (op : T → T → T) (e : T)
    (hassoc : ∀ a b c, op (op a b) c = op a (op b c))
    (hcomm : ∀ a b, op a b = op b a)
    (hidl : ∀ a, op e a = a) (hidr : ∀ a, op a e = a)
    (n : ℕ) (hn : 1 ≤ n) (h hg : ℕ → T) (i1 i2 : ℕ) (xs : List T)
    (h12 : i1 ≤ i2) (h2n : i2 ≤ n) (hlen : xs.length = i2 - i1) :
    grCopyRange n (grAssignRange op n h i1 i2 xs) i1 i2 = xs ∧
    (gaCopyRange op e n (gaAssignRange op e n hg i1 i2 xs) i1 i2).2 = xs := by
  rcases Nat.eq_or_lt_of_le h12 with rfl | hlt
  · have hxs : xs = [] := List.length_eq_zero.mp (by omega)
    subst hxs
    constructor
    · unfold grCopyRange grAssignRange
      rw [if_pos (le_refl i1)]
    · unfold gaCopyRange gaAssignRange
      rw [if_pos (le_refl i1)]
  · obtain ⟨hnd, hwlen, hwmem⟩ := walk_props hn hlt h2n
    have hL2 : leafIdx n i1 ≤ 2 * n - 1 := leafIdx_ub hn (by omega)
    have hR2 : leafIdx n (i2 - 1) ≤ 2 * n - 1 := leafIdx_ub hn (by omega)
    obtain ⟨hrdm, hrdpw⟩ := rdPair_props hn (leafIdx n i1 / 2)
      (leafIdx n (i2 - 1) / 2) (by omega) (by omega)
    set W := walkList n (fuelFor n) (leafIdx n i1) (leafIdx n (i2 - 1) + 1)
      with hW
    set lu := luPairList n (leafIdx n i1 / 2) (leafIdx n (i2 - 1) / 2)
      with hlu
    set rd := rdPair n (leafIdx n i1 / 2) (leafIdx n (i2 - 1) / 2) with hrd
    constructor
    · unfold grAssignRange grCopyRange
      rw [if_neg (by omega), if_neg (by omega)]
      show W.map (updFold op (setFold h W xs) lu) = xs
      rw [List.map_congr_left (fun w hw => updFold_not_mem op lu
        (setFold h W xs) (fun hc => by
          have hlt2 := luPairList_lt_n hn (show leafIdx n i1 / 2 ≤ n - 1
            by omega) (show leafIdx n (i2 - 1) / 2 ≤ n - 1 by omega) w
            (by rw [← hlu]; exact hc)
          have := hwmem w hw
          omega))]
      exact setFold_map W xs h hnd (by omega)
    · unfold gaAssignRange gaCopyRange
      rw [if_neg (by omega), if_neg (by omega)]
      show W.map (consFold op e (setFold (consFold op e hg rd) W xs) rd) = xs
      have hset_e : ∀ v ∈ rd, setFold (consFold op e hg rd) W xs v = e := by
        intro v hv
        rw [setFold_not_mem W xs _ (fun hc => by
          have h1 := hrdm v hv
          have h2 := hwmem v hc
          omega)]
        exact consFold_sets_e op e rd hg hrdpw v hv
      rw [consFold_id op e hidr rd _ (fun v hv => (hrdm v hv).1) hset_e]
      exact setFold_map W xs _ hnd (by omega)

/-- Witness for C7: integer sum, `n = 2`, assigning `[7, 9]` over `[0, 2)`
and copying it back, for both variants. -/
theorem gutter_C7_witness :
    grCopyRange 2 (grAssignRange (· + ·) 2 (freshHeap (0 : ℤ)) 0 2 [7, 9])
      0 2 = [7, 9] ∧
    (gaCopyRange (· + ·) 0 2
      (gaAssignRange (· + ·) 0 2 (freshHeap (0 : ℤ)) 0 2 [7, 9]) 0 2).2 =
      [7, 9] :=
  gutter_C7 (· + ·) 0 (fun a b c => add_assoc a b c) (fun a b => add_comm a b)
    (fun a => zero_add a) (fun a => add_zero a) 2 (by omega) (freshHeap 0)
    (freshHeap 0) 0 2 [7, 9] (by omega) (by omega) rfl

/-- Witness for C1: integer sum, `n = 3`, tree built from `[1, 2, 3]` followed
by a point apply at index `1`, accumulated over the full range. -/
theorem gutter_C1_witness :
    grAccumulate (· + ·) (0 : ℤ) 3
      (grApplyOne (· + ·) 3 (grCtorList (· + ·) 0 [1, 2, 3]) 1 5) 0 3 =
      List.foldl (· + ·) 0 ((List.range' 0 (3 - 0)).map
        (grReadOne 3 (grApplyOne (· + ·) 3 (grCtorList (· + ·) 0 [1, 2, 3]) 1 5))) :=
  gutter_C1 (· + ·) 0 (fun a b c => add_assoc a b c) (fun a b => add_comm a b)
    (fun a => zero_add a) (fun a => add_zero a) 3 _
    (GrReachable.apply_one 1 5 (by omega)
      (GrReachable.ctor_list 0 [1, 2, 3] rfl))
    0 3 (by omega) (by omega)

end Gutter
